import Mathlib

/-!
Verification development for the grepai indexing and stats subsystems.

The definitions below are a shallow embedding of the Go sources:
the stats package (stats/reader.go, the stats constants file), the
indexer (indexer.go together with the store interface in store.go),
and the workspace search filtering in cli (stats.go bundle, function
runWorkspaceSearch).  Machine integers are modelled as Int, float
values as Rat, and fallible operations as Option or Except.
-/

namespace Grepai

/-! ## Stats package (stats constants file, stats/reader.go) -/

/-- GrepExpansionFactor from the stats package: multiplier applied to the
result count when estimating grep-equivalent tokens. -/
def GrepExpansionFactor : Int := 3

/-- DefaultChunkTokens from the stats package: default chunk size in tokens. -/
def DefaultChunkTokens : Int := 512

/-- CostPerMTokenUSD from the stats package: reference cost per million
input tokens, a Go float64 modelled as Rat. -/
def CostPerMTokenUSD : Rat := 5

/-- MinGrepTokens from the stats package: minimum grep-equivalent token
estimate when the result count is zero. -/
def MinGrepTokens : Int := 50

/-- cloudProviders from the stats package: provider names with a token cost. -/
def cloudProviders : List String := ["openai", "openrouter", "synthetic"]

/-- IsCloudProvider from the stats package. -/
def IsCloudProvider (provider : String) : Bool :=
  cloudProviders.contains provider

/-- GrepEquivalentTokens from the stats package: grep-equivalent token
estimate for a given number of results. -/
def GrepEquivalentTokens (resultCount : Int) : Int :=
  if resultCount = 0 then MinGrepTokens
  else resultCount * DefaultChunkTokens * GrepExpansionFactor

/-- Entry from the stats package: one recorded command event. -/
structure Entry where
  timestamp : String
  commandType : String
  outputMode : String
  resultCount : Int
  outputTokens : Int
  grepTokens : Int
deriving DecidableEq

/-- Summary from the stats package.  The two Go count maps are modelled as
total functions defaulting to zero, which matches Go map-lookup semantics. -/
structure Summary where
  totalQueries : Int
  outputTokens : Int
  grepTokens : Int
  tokensSaved : Int
  savingsPct : Rat
  costSavedUSD : Option Rat
  byCommandType : String → Int
  byOutputMode : String → Int

/-- Increment of one key of a Go count map, modelled on functions. -/
def bump (m : String → Int) (k : String) : String → Int :=
  fun k2 => if k2 = k then m k2 + 1 else m k2

/-- The body of the Summarize accumulation loop (the Go for-range loop). -/
def addEntry (s : Summary) (e : Entry) : Summary :=
  { s with totalQueries := s.totalQueries + 1,
           outputTokens := s.outputTokens + e.outputTokens,
           grepTokens := s.grepTokens + e.grepTokens,
           byCommandType := bump s.byCommandType e.commandType,
           byOutputMode := bump s.byOutputMode e.outputMode }

/-- The initial Summary value of the Go Summarize function. -/
def emptySummary : Summary :=
  { totalQueries := 0, outputTokens := 0, grepTokens := 0, tokensSaved := 0,
    savingsPct := 0, costSavedUSD := none,
    byCommandType := fun _ => 0, byOutputMode := fun _ => 0 }

/-- Summarize from stats/reader.go: aggregates entries into a Summary.
The division guard (grepTokens greater than zero) matches the source. -/
def Summarize (entries : List Entry) (provider : String) : Summary :=
  let acc : Summary := entries.foldl addEntry emptySummary
  let withSaved : Summary := { acc with tokensSaved := acc.grepTokens - acc.outputTokens }
  let withPct : Summary :=
    if 0 < withSaved.grepTokens then
      { withSaved with
        savingsPct := ((withSaved.tokensSaved : Rat) / (withSaved.grepTokens : Rat)) * 100 }
    else withSaved
  if IsCloudProvider provider then
    { withPct with
      costSavedUSD := some (((withPct.tokensSaved : Rat) / 1000000) * CostPerMTokenUSD) }
  else withPct

/-- ReadAll from stats/reader.go.  The file is modelled as Option (List String):
none when it does not exist (Go returns nil, nil there), some lines otherwise.
json.Unmarshal of one line is an abstract partial function unmarshal.  The
line loop mirrors the bufio scan: trim the line, skip blanks, skip lines
the unmarshaller rejects, append the rest in order.  readLine is the loop
body for one line. -/
def readLine (unmarshal : String → Option Entry)
    (acc : List Entry) (l : String) : List Entry :=
  let line := l.trim
  if line = "" then acc
  else
    match unmarshal line with
    | none => acc
    | some e => acc ++ [e]

/-- ReadAll, continued: dispatch on file existence and run the line loop. -/
def ReadAll (unmarshal : String → Option Entry)
    (file : Option (List String)) : Except String (List Entry) :=
  match file with
  | none => Except.ok []
  | some fileLines => Except.ok (fileLines.foldl (readLine unmarshal) [])

/-! ## Store data model (store/store.go) -/

/-- Chunk from store/store.go.  The float32 vector entries are modelled as
Rat, the timestamp as Int. -/
structure Chunk where
  id : String
  filePath : String
  startLine : Int
  endLine : Int
  content : String
  vector : List Rat
  hash : String
  updatedAt : Int
deriving DecidableEq

/-- Document from store/store.go. -/
structure Document where
  path : String
  hash : String
  modTime : Int
  chunkIds : List String
deriving DecidableEq

/-- SearchResult from store/store.go, score modelled as Rat. -/
structure SearchResult where
  chunk : Chunk
  score : Rat
deriving DecidableEq

/-- The persisted part of a VectorStore: its chunk table and document table.
Modelled from the spec: the concrete backends (GOB, Postgres, Qdrant) are not
in the sources; this follows the VectorStore interface contracts documented
in store/store.go and section 4.4 of the spec (chunks keyed by id, documents
keyed by path). -/
structure StoreState where
  chunks : List Chunk
  docs : List Document
deriving DecidableEq

/-- SaveChunks interface contract: store the given chunks, replacing any
already stored chunk with the same id (map upsert). -/
def saveChunks (s : StoreState) (cs : List Chunk) : StoreState :=
  { s with chunks :=
      s.chunks.filter (fun c => !(cs.any (fun c2 => c2.id == c.id))) ++ cs }

/-- DeleteByFile interface contract: remove every chunk whose file path is
the given path. -/
def deleteByFile (s : StoreState) (p : String) : StoreState :=
  { s with chunks := s.chunks.filter (fun c => !(c.filePath == p)) }

/-- GetDocument interface contract: document metadata by path, or absent. -/
def getDocument (s : StoreState) (p : String) : Option Document :=
  s.docs.find? (fun d => d.path == p)

/-- SaveDocument interface contract: upsert by path. -/
def saveDocument (s : StoreState) (d : Document) : StoreState :=
  { s with docs := s.docs.filter (fun d2 => !(d2.path == d.path)) ++ [d] }

/-- DeleteDocument interface contract: remove document metadata. -/
def deleteDocument (s : StoreState) (p : String) : StoreState :=
  { s with docs := s.docs.filter (fun d => !(d.path == p)) }

/-- ListDocuments interface contract: all indexed document paths. -/
def listDocuments (s : StoreState) : List String :=
  s.docs.map (fun d => d.path)

/-- All stored chunks whose file path is p (GetChunksForFile contract). -/
def chunksFor (s : StoreState) (p : String) : List Chunk :=
  s.chunks.filter (fun c => c.filePath == p)

/-! ## Indexer (indexer.go) -/

/-- FileInfo produced by the scanner: path, content hash, mod time, content. -/
structure FileInfo where
  path : String
  hash : String
  modTime : Int
  content : String
deriving DecidableEq

/-- ChunkInfo produced by the Chunker for one chunk of a file. -/
structure ChunkInfo where
  id : String
  filePath : String
  startLine : Int
  endLine : Int
  content : String
  hash : String
deriving DecidableEq

/-- IndexStats from indexer.go (the wall-clock Duration field is omitted). -/
structure IndexStats where
  filesIndexed : Nat
  filesSkipped : Nat
  chunksCreated : Nat
  filesRemoved : Nat
deriving DecidableEq

/-- One observable operation issued by the indexer: the VectorStore calls
of indexer.go plus the EmbedBatch call on the embedder. -/
inductive Op where
  | listDocuments : Op
  | getDocument : String → Op
  | deleteByFile : String → Op
  | embedBatch : List String → Op
  | saveChunks : List Chunk → Op
  | saveDocument : Document → Op
  | deleteDocument : String → Op
  | persist : Op
deriving DecidableEq

/-- The store chunks IndexFile builds from chunk infos and embedding vectors
(the construction loop in indexer.go, with now the shared timestamp). -/
def mkChunks (now : Int) (infos : List ChunkInfo) (vectors : List (List Rat)) :
    List Chunk :=
  List.zipWith (fun (info : ChunkInfo) v =>
    { id := info.id, filePath := info.filePath, startLine := info.startLine,
      endLine := info.endLine, content := info.content, vector := v,
      hash := info.hash, updatedAt := now }) infos vectors

/-- The document metadata IndexFile saves for a file. -/
def docFor (f : FileInfo) (infos : List ChunkInfo) : Document :=
  { path := f.path, hash := f.hash, modTime := f.modTime,
    chunkIds := infos.map (fun i => i.id) }

/-- Result of one IndexFile call: new store state, operations issued, and
the returned chunk count (none models the Go error return). -/
structure FileResult where
  state : StoreState
  trace : List Op
  chunkCount : Option Nat

/-- IndexFile from indexer.go.  chunker models Chunker.ChunkWithContext and
emb models Embedder.EmbedBatch (none is an embedding error).  The Go code
indexes vectors by chunk position; mkChunks pairs them positionally, and it
returns the chunk-info count exactly as the source returns len(chunks). -/
def indexFile (chunker : String → String → List ChunkInfo)
    (emb : List String → Option (List (List Rat)))
    (now : Int) (s : StoreState) (f : FileInfo) : FileResult :=
  let s1 := deleteByFile s f.path
  let infos := chunker f.path f.content
  if infos.isEmpty then
    { state := s1, trace := [Op.deleteByFile f.path], chunkCount := some 0 }
  else
    let contents := infos.map (fun i => i.content)
    match emb contents with
    | none =>
      { state := s1, trace := [Op.deleteByFile f.path, Op.embedBatch contents],
        chunkCount := none }
    | some vectors =>
      let cs := mkChunks now infos vectors
      let s2 := saveChunks s1 cs
      let d := docFor f infos
      let s3 := saveDocument s2 d
      { state := s3,
        trace := [Op.deleteByFile f.path, Op.embedBatch contents,
                  Op.saveChunks cs, Op.saveDocument d],
        chunkCount := some infos.length }

/-- The unchanged-file test of the IndexAll loop: the document exists and
its stored hash equals the scanned hash. -/
def docHashMatches (s : StoreState) (f : FileInfo) : Bool :=
  match getDocument s f.path with
  | some d => d.hash == f.hash
  | none => false

/-- Key removal from the Go set existingMap, modelled on lists. -/
def eraseKey (l : List String) (p : String) : List String :=
  l.filter (fun q => !(q == p))

/-- Mutable state of the IndexAll file loop: store, the remaining existing
set, the two counters, and the operation trace so far. -/
structure LoopState where
  store : StoreState
  existingSet : List String
  filesIndexed : Nat
  chunksCreated : Nat
  trace : List Op

/-- One iteration of the IndexAll file loop (indexer.go): skip the file when
the stored document hash matches, otherwise run IndexFile; on an IndexFile
error log and continue without counting and without erasing the path from
the existing set. -/
def indexStep (chunker : String → String → List ChunkInfo)
    (emb : List String → Option (List (List Rat)))
    (now : Int) (ls : LoopState) (f : FileInfo) : LoopState :=
  let tr := ls.trace ++ [Op.getDocument f.path]
  if docHashMatches ls.store f then
    { ls with existingSet := eraseKey ls.existingSet f.path, trace := tr }
  else
    let r := indexFile chunker emb now ls.store f
    match r.chunkCount with
    | none => { ls with store := r.state, trace := tr ++ r.trace }
    | some n =>
      { store := r.state,
        existingSet := eraseKey ls.existingSet f.path,
        filesIndexed := ls.filesIndexed + 1,
        chunksCreated := ls.chunksCreated + n,
        trace := tr ++ r.trace }

/-- The IndexAll file loop over the scanned files, in scan order. -/
def indexLoop (chunker : String → String → List ChunkInfo)
    (emb : List String → Option (List (List Rat)))
    (now : Int) : LoopState → List FileInfo → LoopState
  | ls, [] => ls
  | ls, f :: rest => indexLoop chunker emb now (indexStep chunker emb now ls f) rest

/-- The IndexAll removal loop: RemoveFile (DeleteByFile then DeleteDocument)
on each remaining path, counting removals.  Returns the final state, the
operations issued, and the removal count. -/
def removePhase : StoreState → List String → StoreState × List Op × Nat
  | s, [] => (s, [], 0)
  | s, p :: rest =>
    let r := removePhase (deleteDocument (deleteByFile s p) p) rest
    (r.1, [Op.deleteByFile p, Op.deleteDocument p] ++ r.2.1, r.2.2 + 1)

/-- Result of one IndexAll run: the reported stats, the full operation
trace, and the final store state. -/
structure RunResult where
  stats : IndexStats
  trace : List Op
  state : StoreState

/-- IndexAll from indexer.go.  The scan result (files, skipped) is an input.
existingMap is the Go map built from ListDocuments, so its key set is the
deduplicated document path list; mapOrder models the unspecified Go map
iteration order of the removal loop.  startState is the loop state right
after the ListDocuments call: the Go map keys are the deduplicated document
path list. -/
def startState (s0 : StoreState) : LoopState :=
  { store := s0, existingSet := (listDocuments s0).dedup, filesIndexed := 0,
    chunksCreated := 0, trace := [Op.listDocuments] }

/-- IndexAll, continued: run the file loop, then the removal loop, and
assemble the reported stats. -/
def indexAll (chunker : String → String → List ChunkInfo)
    (emb : List String → Option (List (List Rat)))
    (now : Int) (mapOrder : List String → List String)
    (s0 : StoreState) (files : List FileInfo) (skipped : List String) :
    RunResult :=
  let ls := indexLoop chunker emb now (startState s0) files
  let r := removePhase ls.store (mapOrder ls.existingSet)
  { stats := { filesIndexed := ls.filesIndexed, filesSkipped := skipped.length,
               chunksCreated := ls.chunksCreated, filesRemoved := r.2.2 },
    trace := ls.trace ++ r.2.1,
    state := r.1 }

/-- RemoveFile from indexer.go, as a standalone operation. -/
def removeFile (s : StoreState) (p : String) : StoreState × List Op :=
  (deleteDocument (deleteByFile s p) p, [Op.deleteByFile p, Op.deleteDocument p])

/-- NeedsReindex from indexer.go. -/
def needsReindex (s : StoreState) (p : String) (h : String) : Bool :=
  match getDocument s p with
  | none => true
  | some d => !(d.hash == h)

/-! Derived descriptions of the operations the indexer issues, used to
state and prove the loop characterization lemmas. -/

/-- The operations one IndexFile call issues; they depend only on the file,
never on the store state. -/
def indexFileOps (chunker : String → String → List ChunkInfo)
    (emb : List String → Option (List (List Rat)))
    (now : Int) (f : FileInfo) : List Op :=
  let infos := chunker f.path f.content
  if infos.isEmpty then [Op.deleteByFile f.path]
  else
    let contents := infos.map (fun i => i.content)
    match emb contents with
    | none => [Op.deleteByFile f.path, Op.embedBatch contents]
    | some vectors =>
      [Op.deleteByFile f.path, Op.embedBatch contents,
       Op.saveChunks (mkChunks now infos vectors),
       Op.saveDocument (docFor f infos)]

/-- Whether the chunker yields no chunks for this file. -/
def chunkerEmpty (chunker : String → String → List ChunkInfo)
    (f : FileInfo) : Bool :=
  (chunker f.path f.content).isEmpty

/-- Whether IndexFile fails on this file: some chunks exist but the
embedder rejects the batch. -/
def embFails (chunker : String → String → List ChunkInfo)
    (emb : List String → Option (List (List Rat))) (f : FileInfo) : Bool :=
  !(chunkerEmpty chunker f) &&
    (emb ((chunker f.path f.content).map (fun i => i.content))).isNone

/-- Whether the loop erases this file from the existing set: it is skipped
as unchanged, or IndexFile succeeds on it. -/
def fileErased (chunker : String → String → List ChunkInfo)
    (emb : List String → Option (List (List Rat)))
    (s0 : StoreState) (f : FileInfo) : Bool :=
  docHashMatches s0 f || !(embFails chunker emb f)

/-- Whether the loop counts this file in FilesIndexed: not skipped and
IndexFile succeeds. -/
def fileIndexed (chunker : String → String → List ChunkInfo)
    (emb : List String → Option (List (List Rat)))
    (s0 : StoreState) (f : FileInfo) : Bool :=
  !(docHashMatches s0 f) && !(embFails chunker emb f)

/-- The operations one loop iteration issues, classified against the store
state the file is processed in. -/
def stepOps (chunker : String → String → List ChunkInfo)
    (emb : List String → Option (List (List Rat)))
    (now : Int) (s0 : StoreState) (f : FileInfo) : List Op :=
  Op.getDocument f.path ::
    (if docHashMatches s0 f then [] else indexFileOps chunker emb now f)

/-- The operations the whole file loop issues. -/
def loopOps (chunker : String → String → List ChunkInfo)
    (emb : List String → Option (List (List Rat)))
    (now : Int) (s0 : StoreState) : List FileInfo → List Op
  | [] => []
  | f :: rest =>
    stepOps chunker emb now s0 f ++ loopOps chunker emb now s0 rest

/-- The operations the removal phase issues for a list of paths. -/
def removeOps : List String → List Op
  | [] => []
  | p :: rest => Op.deleteByFile p :: Op.deleteDocument p :: removeOps rest

/-- Referential integrity of documents (invariant 1 of the spec): every id
in any stored document's chunk id list names a stored chunk with matching
file path. -/
def refIntegrity (s : StoreState) : Bool :=
  s.docs.all (fun d => d.chunkIds.all (fun cid =>
    s.chunks.any (fun c => c.id == cid && c.filePath == d.path)))

/-! ## Workspace search filtering (cli stats.go bundle, runWorkspaceSearch) -/

/-- The path prefix runWorkspaceSearch passes to the store search: the
workspace name, then the project name when exactly one project is resolved,
then the normalized path option when present. -/
def workspaceSearchPathStart (wsName : String) (resolvedProjects : List String)
    (normalizedPath : String) : String :=
  let p0 := wsName ++ "/"
  let p1 :=
    match resolvedProjects with
    | [p] => p0 ++ p ++ "/"
    | _ => p0
  if normalizedPath ≠ "" then p1 ++ normalizedPath else p1

/-- strings.HasPrefix from the Go standard library, modelled on the
character lists of the two strings. -/
def hasPre (s pre : String) : Bool :=
  pre.data.isPrefixOf s.data

/-- The client-side project filter of runWorkspaceSearch: when projects are
requested, keep exactly the results whose file path starts with
workspace/project/ for some requested project. -/
def filterByProjects (wsName : String) (resolvedProjects : List String)
    (results : List SearchResult) : List SearchResult :=
  if resolvedProjects.isEmpty then results
  else results.filter (fun r =>
    resolvedProjects.any (fun p =>
      hasPre r.chunk.filePath (wsName ++ "/" ++ p ++ "/")))

/-! ## Concrete fixtures shared by witnesses and counterexamples -/

/-- A chunker for concrete runs: empty content yields zero chunks, other
content yields one chunk tagged with the file path (the chunker contracts
of spec section 4.2). -/
def cChunker : String → String → List ChunkInfo := fun p c =>
  if c = "" then []
  else [{ id := "c-" ++ p, filePath := p, startLine := 1, endLine := 2,
          content := c, hash := "h-" ++ c }]

/-- An embedder for concrete runs that always succeeds. -/
def cEmb : List String → Option (List (List Rat)) :=
  fun cs => some (cs.map (fun _ => [1]))

/-- An embedder for concrete runs that always fails. -/
def cEmbFail : List String → Option (List (List Rat)) := fun _ => none

/-- A store holding one indexed file a.txt with one chunk. -/
def cStore : StoreState :=
  { chunks := [{ id := "c1", filePath := "a.txt", startLine := 1, endLine := 2,
                 content := "x", vector := [1], hash := "hc", updatedAt := 0 }],
    docs := [{ path := "a.txt", hash := "h0", modTime := 0, chunkIds := ["c1"] }] }

/-- The scanned a.txt after a change that empties it. -/
def cFileEmptied : FileInfo :=
  { path := "a.txt", hash := "h1", modTime := 1, content := "" }

/-- The scanned a.txt after a content change. -/
def cFileChanged : FileInfo :=
  { path := "a.txt", hash := "h1", modTime := 1, content := "y" }

/-- A store holding two indexed documents a and b with no chunks. -/
def cStoreAB : StoreState :=
  { chunks := [],
    docs := [{ path := "a", hash := "h", modTime := 0, chunkIds := [] },
             { path := "b", hash := "h", modTime := 0, chunkIds := [] }] }

/-- A concrete search result inside workspace w, project p. -/
def cResult : SearchResult :=
  { chunk := { id := "id1", filePath := "w/p/x.go", startLine := 1, endLine := 2,
               content := "", vector := [], hash := "h", updatedAt := 0 },
    score := 0 }

/-! ## Stats lemmas and claim theorems C8, C9, C10 -/

/-- Sum of the grep token fields of a list of entries. -/
def sumGrep (entries : List Entry) : Int :=
  (entries.map (fun e => e.grepTokens)).sum

/-- Sum of the output token fields of a list of entries. -/
def sumOut (entries : List Entry) : Int :=
  (entries.map (fun e => e.outputTokens)).sum

theorem addEntry_foldl_grep (entries : List Entry) (base : Summary) :
    (entries.foldl addEntry base).grepTokens = base.grepTokens + sumGrep entries := by
  induction entries generalizing base with
  | nil => simp [sumGrep]
  | cons e t ih =>
    rw [List.foldl_cons, ih]
    simp [addEntry, sumGrep]
    omega

theorem addEntry_foldl_out (entries : List Entry) (base : Summary) :
    (entries.foldl addEntry base).outputTokens = base.outputTokens + sumOut entries := by
  induction entries generalizing base with
  | nil => simp [sumOut]
  | cons e t ih =>
    rw [List.foldl_cons, ih]
    simp [addEntry, sumOut]
    omega

theorem addEntry_foldl_pct (entries : List Entry) (base : Summary) :
    (entries.foldl addEntry base).savingsPct = base.savingsPct := by
  induction entries generalizing base with
  | nil => rfl
  | cons e t ih => rw [List.foldl_cons, ih]; rfl

/-- Claim C8: GrepEquivalentTokens returns resultCount times 512 times 3
(resultCount times DefaultChunkTokens times GrepExpansionFactor) for every
positive resultCount, and the constant MinGrepTokens = 50 for zero. -/
theorem grepEquivalentTokens_spec (n : Int) :
    (0 < n → GrepEquivalentTokens n = n * DefaultChunkTokens * GrepExpansionFactor) ∧
    GrepEquivalentTokens 0 = MinGrepTokens ∧
    DefaultChunkTokens = 512 ∧ GrepExpansionFactor = 3 ∧ MinGrepTokens = 50 := by
  refine ⟨fun h => ?_, by decide, by decide, by decide, by decide⟩
  unfold GrepEquivalentTokens
  rw [if_neg (by omega)]

/-- Witness for C8 at resultCount 4 and 0. -/
theorem grepEquivalentTokens_spec_witness :
    GrepEquivalentTokens 4 = 4 * DefaultChunkTokens * GrepExpansionFactor ∧
    GrepEquivalentTokens 0 = MinGrepTokens :=
  ⟨(grepEquivalentTokens_spec 4).1 (by decide), (grepEquivalentTokens_spec 4).2.1⟩

/-- Claim C9: Summarize never divides by zero: when the grep token sum is
zero the SavingsPct is exactly 0, and when it is positive the SavingsPct is
(GrepTokens - OutputTokens) / GrepTokens * 100, with TokensSaved always
GrepTokens - OutputTokens. -/
theorem summarize_spec (entries : List Entry) (provider : String) :
    (Summarize entries provider).tokensSaved = sumGrep entries - sumOut entries ∧
    (sumGrep entries = 0 → (Summarize entries provider).savingsPct = 0) ∧
    (0 < sumGrep entries →
      (Summarize entries provider).savingsPct =
        (((sumGrep entries - sumOut entries : Int) : Rat) /
          ((sumGrep entries : Int) : Rat)) * 100) := by
  have hg : (entries.foldl addEntry emptySummary).grepTokens = sumGrep entries := by
    rw [addEntry_foldl_grep]
    simp [emptySummary]
  have ho : (entries.foldl addEntry emptySummary).outputTokens = sumOut entries := by
    rw [addEntry_foldl_out]
    simp [emptySummary]
  have hp : (entries.foldl addEntry emptySummary).savingsPct = 0 := by
    rw [addEntry_foldl_pct]
    rfl
  refine ⟨?_, ?_, ?_⟩
  · by_cases hpos : 0 < sumGrep entries <;>
      by_cases hcloud : IsCloudProvider provider = true <;>
        simp [Summarize, hg, ho, hp, hpos, hcloud]
  · intro h0
    have hpos : ¬ 0 < sumGrep entries := by omega
    by_cases hcloud : IsCloudProvider provider = true <;>
      simp [Summarize, hg, ho, hp, hpos, hcloud]
  · intro hpos
    by_cases hcloud : IsCloudProvider provider = true <;>
      simp [Summarize, hg, ho, hp, hpos, hcloud]

/-- Witness for C9 on a one-entry list with positive grep sum and on the
empty list with zero grep sum. -/
theorem summarize_spec_witness :
    (Summarize [{ timestamp := "2026-02-22T10:00:00Z", commandType := "search",
                  outputMode := "full", resultCount := 4, outputTokens := 200,
                  grepTokens := 2048 }] "openai").savingsPct =
      (((sumGrep [{ timestamp := "2026-02-22T10:00:00Z", commandType := "search",
                    outputMode := "full", resultCount := 4, outputTokens := 200,
                    grepTokens := 2048 }] -
          sumOut [{ timestamp := "2026-02-22T10:00:00Z", commandType := "search",
                    outputMode := "full", resultCount := 4, outputTokens := 200,
                    grepTokens := 2048 }] : Int) : Rat) /
        ((sumGrep [{ timestamp := "2026-02-22T10:00:00Z", commandType := "search",
                     outputMode := "full", resultCount := 4, outputTokens := 200,
                     grepTokens := 2048 }] : Int) : Rat)) * 100 ∧
    (Summarize [] "ollama").savingsPct = 0 :=
  ⟨(summarize_spec [{ timestamp := "2026-02-22T10:00:00Z", commandType := "search",
                      outputMode := "full", resultCount := 4, outputTokens := 200,
                      grepTokens := 2048 }] "openai").2.2 (by decide),
   (summarize_spec [] "ollama").2.1 (by decide)⟩

theorem readLine_foldl (unmarshal : String → Option Entry)
    (fileLines : List String) (acc : List Entry) :
    fileLines.foldl (readLine unmarshal) acc =
      acc ++ fileLines.filterMap
        (fun l => if l.trim = "" then none else unmarshal l.trim) := by
  induction fileLines generalizing acc with
  | nil => simp
  | cons l t ih =>
    rw [List.foldl_cons, ih]
    by_cases hb : l.trim = ""
    · simp [readLine, hb]
    · cases hu : unmarshal l.trim <;> simp [readLine, hb, hu]

/-- Claim C10: ReadAll returns an empty entry list and no error when the
stats file does not exist; on an existing file every blank or unparsable
line is skipped and every well-formed line contributes exactly one entry,
in file order. -/
theorem readAll_spec (unmarshal : String → Option Entry)
    (fileLines : List String) :
    ReadAll unmarshal none = Except.ok [] ∧
    ReadAll unmarshal (some fileLines) =
      Except.ok (fileLines.filterMap
        (fun l => if l.trim = "" then none else unmarshal l.trim)) := by
  refine ⟨rfl, ?_⟩
  simp only [ReadAll, readLine_foldl, List.nil_append]

/-! ## Workspace search: claim C7 -/

/-- Counterexample to C7 as stated: with one resolved project and a
nonempty normalized path option, the prefix passed to the store search is
not workspace/project/ but workspace/project/ followed by the path. -/
theorem workspaceSearch_counterexample :
    workspaceSearchPathStart "w" ["p"] "sub/" ≠ "w" ++ "/" ++ "p" ++ "/" := by
  decide

/-- Claim C7 (amended): with exactly one resolved project the store search
prefix is workspace/project/ followed by the normalized path option (empty
when no path is given); otherwise it is workspace/ followed by that option;
client-side filtering keeps exactly the results whose file path starts with
workspace/p/ for some requested project p. -/
theorem workspaceSearch_spec (wsName np proj : String) (projs : List String)
    (results : List SearchResult) (r : SearchResult) :
    workspaceSearchPathStart wsName [proj] np = (wsName ++ "/" ++ proj ++ "/") ++ np ∧
    (projs.length ≠ 1 → workspaceSearchPathStart wsName projs np = (wsName ++ "/") ++ np) ∧
    (projs ≠ [] → r ∈ filterByProjects wsName projs results →
      r ∈ results ∧
        ∃ p ∈ projs, hasPre r.chunk.filePath (wsName ++ "/" ++ p ++ "/") = true) ∧
    (r ∈ results →
      (∃ p ∈ projs, hasPre r.chunk.filePath (wsName ++ "/" ++ p ++ "/") = true) →
      r ∈ filterByProjects wsName projs results) := by
  refine ⟨?_, ?_, ?_, ?_⟩
  · simp only [workspaceSearchPathStart]
    by_cases h : np = "" <;> simp [h]
  · intro hlen
    simp only [workspaceSearchPathStart]
    match projs, hlen with
    | [], _ => by_cases h : np = "" <;> simp [h]
    | p :: q :: t, _ => by_cases h : np = "" <;> simp [h]
  · intro hne hmem
    have hE : projs.isEmpty = false := by
      cases projs with
      | nil => exact absurd rfl hne
      | cons a t => rfl
    simp only [filterByProjects, hE, Bool.false_eq_true, if_false] at hmem
    rw [List.mem_filter] at hmem
    refine ⟨hmem.1, ?_⟩
    have := hmem.2
    rw [List.any_eq_true] at this
    obtain ⟨p, hp, hsw⟩ := this
    exact ⟨p, hp, hsw⟩
  · intro hr hex
    obtain ⟨p, hp, hsw⟩ := hex
    have hne : projs ≠ [] := by
      intro h
      subst h
      exact absurd hp (List.not_mem_nil p)
    have hE : projs.isEmpty = false := by
      cases projs with
      | nil => exact absurd rfl hne
      | cons a t => rfl
    simp only [filterByProjects, hE, Bool.false_eq_true, if_false]
    rw [List.mem_filter]
    exact ⟨hr, List.any_eq_true.mpr ⟨p, hp, hsw⟩⟩

/-- Witness for C7 at a concrete workspace, two requested projects and one
matching result. -/
theorem workspaceSearch_spec_witness :
    workspaceSearchPathStart "w" ["p"] "x/" = ("w" ++ "/" ++ "p" ++ "/") ++ "x/" ∧
    workspaceSearchPathStart "w" ["p", "q"] "x/" = ("w" ++ "/") ++ "x/" ∧
    (cResult ∈ [cResult] ∧
      ∃ p ∈ ["p", "q"],
        hasPre cResult.chunk.filePath ("w" ++ "/" ++ p ++ "/") = true) ∧
    cResult ∈ filterByProjects "w" ["p", "q"] [cResult] :=
  ⟨(workspaceSearch_spec "w" "x/" "p" ["p", "q"] [cResult] cResult).1,
   (workspaceSearch_spec "w" "x/" "p" ["p", "q"] [cResult] cResult).2.1 (by decide),
   (workspaceSearch_spec "w" "x/" "p" ["p", "q"] [cResult] cResult).2.2.1
     (by decide) (by decide),
   (workspaceSearch_spec "w" "x/" "p" ["p", "q"] [cResult] cResult).2.2.2
     (by decide) ⟨"p", by decide, by decide⟩⟩

/-! ## Store operation lemmas -/

theorem getDocument_deleteByFile (s : StoreState) (q p : String) :
    getDocument (deleteByFile s q) p = getDocument s p := rfl

theorem getDocument_saveChunks (s : StoreState) (cs : List Chunk) (p : String) :
    getDocument (saveChunks s cs) p = getDocument s p := rfl

theorem chunksFor_deleteDocument (s : StoreState) (q p : String) :
    chunksFor (deleteDocument s q) p = chunksFor s p := rfl

theorem chunksFor_saveDocument (s : StoreState) (d : Document) (p : String) :
    chunksFor (saveDocument s d) p = chunksFor s p := rfl

theorem docs_deleteByFile (s : StoreState) (q : String) :
    (deleteByFile s q).docs = s.docs := rfl

theorem docs_saveChunks (s : StoreState) (cs : List Chunk) :
    (saveChunks s cs).docs = s.docs := rfl

theorem find?_save_ne (ds : List Document) (d : Document) (p : String)
    (h : ¬ d.path = p) :
    ((ds.filter fun d2 => !(d2.path == d.path)) ++ [d]).find?
        (fun x => x.path == p) =
      ds.find? (fun x => x.path == p) := by
  induction ds with
  | nil =>
    have hb : (d.path == p) = false := by simp [h]
    simp [List.find?, hb]
  | cons a t ih =>
    by_cases had : a.path = d.path
    · rw [List.filter_cons_of_neg (by simp [had])]
      rw [ih, List.find?_cons_of_neg _ (by simp [had, h])]
    · rw [List.filter_cons_of_pos (by simp [had])]
      by_cases hap : a.path = p
      · rw [List.cons_append, List.find?_cons_of_pos _ (by simp [hap]),
          List.find?_cons_of_pos _ (by simp [hap])]
      · rw [List.cons_append, List.find?_cons_of_neg _ (by simp [hap]),
          List.find?_cons_of_neg _ (by simp [hap]), ih]

theorem find?_save_self (ds : List Document) (d : Document) :
    ((ds.filter fun d2 => !(d2.path == d.path)) ++ [d]).find?
        (fun x => x.path == d.path) = some d := by
  induction ds with
  | nil => simp [List.find?]
  | cons a t ih =>
    by_cases had : a.path = d.path
    · rw [List.filter_cons_of_neg (by simp [had])]
      exact ih
    · rw [List.filter_cons_of_pos (by simp [had]), List.cons_append,
        List.find?_cons_of_neg _ (by simp [had]), ih]

theorem getDocument_saveDocument_ne (s : StoreState) (d : Document) (p : String)
    (h : ¬ d.path = p) :
    getDocument (saveDocument s d) p = getDocument s p :=
  find?_save_ne s.docs d p h

theorem getDocument_saveDocument_self (s : StoreState) (d : Document) :
    getDocument (saveDocument s d) d.path = some d :=
  find?_save_self s.docs d

theorem chunksFor_deleteByFile (s : StoreState) (q p : String) :
    chunksFor (deleteByFile s q) p = if q = p then [] else chunksFor s p := by
  unfold chunksFor deleteByFile
  simp only
  induction s.chunks with
  | nil => split <;> rfl
  | cons c t ih =>
    by_cases hq : c.filePath = q <;> by_cases hp : c.filePath = p
    · rw [List.filter_cons_of_neg (by simp [hq])]
      rw [if_pos (hq ▸ hp)] at ih ⊢
      exact ih
    · rw [List.filter_cons_of_neg (by simp [hq])]
      by_cases hqp : q = p
      · rw [if_pos hqp] at ih ⊢
        exact ih
      · rw [if_neg hqp] at ih ⊢
        rw [List.filter_cons_of_neg (by simp [hp]), ih]
    · have hqp : ¬ q = p := fun he => hq (he ▸ hp)
      rw [List.filter_cons_of_pos (by simp [hq]),
        List.filter_cons_of_pos (by simp [hp]), if_neg hqp] at *
      rw [List.filter_cons_of_pos (by simp [hp]), ih]
    · rw [List.filter_cons_of_pos (by simp [hq])]
      by_cases hqp : q = p
      · rw [if_pos hqp] at ih ⊢
        rw [List.filter_cons_of_neg (by simp [hp]), ih]
      · rw [if_neg hqp] at ih ⊢
        rw [List.filter_cons_of_neg (by simp [hp]),
          List.filter_cons_of_neg (by simp [hp]), ih]

theorem filter_sub_nil {α : Type} (l : List α) (f g : α → Bool)
    (h : l.filter f = []) : (l.filter g).filter f = [] := by
  rw [List.filter_eq_nil_iff] at h ⊢
  intro a ha
  exact h a (List.mem_of_mem_filter ha)

theorem mkChunks_filePath (now : Int) (infos : List ChunkInfo)
    (vs : List (List Rat)) (c : Chunk) (hc : c ∈ mkChunks now infos vs) :
    ∃ i ∈ infos, c.filePath = i.filePath := by
  induction infos generalizing vs with
  | nil => simp [mkChunks] at hc
  | cons i t ih =>
    cases vs with
    | nil => simp [mkChunks] at hc
    | cons v vt =>
      rw [mkChunks, List.zipWith_cons_cons] at hc
      rcases List.mem_cons.mp hc with h | h
      · exact ⟨i, List.mem_cons_self i t, by rw [h]⟩
      · obtain ⟨j, hj, hx⟩ := ih vt h
        exact ⟨j, List.mem_cons_of_mem i hj, hx⟩

theorem chunksFor_saveChunks_nil (s : StoreState) (cs : List Chunk) (p : String)
    (h1 : chunksFor s p = []) (h2 : ∀ c ∈ cs, ¬ c.filePath = p) :
    chunksFor (saveChunks s cs) p = [] := by
  unfold chunksFor saveChunks
  simp only
  rw [List.filter_append]
  have hcs : cs.filter (fun c => c.filePath == p) = [] := by
    rw [List.filter_eq_nil_iff]
    intro c hc
    simp [h2 c hc]
  rw [hcs, filter_sub_nil _ _ _ h1, List.nil_append]

theorem find?_filter_eq {α : Type} (l : List α) (f g : α → Bool)
    (h : ∀ x, f x = true → g x = true) :
    (l.filter g).find? f = l.find? f := by
  induction l with
  | nil => rfl
  | cons a t ih =>
    by_cases hg : g a = true
    · rw [List.filter_cons_of_pos hg]
      by_cases hf : f a = true
      · rw [List.find?_cons_of_pos _ hf, List.find?_cons_of_pos _ hf]
      · rw [List.find?_cons_of_neg _ (by simp [hf]),
          List.find?_cons_of_neg _ (by simp [hf]), ih]
    · rw [List.filter_cons_of_neg (by simpa using hg)]
      have hf : ¬ f a = true := fun hfa => hg (h a hfa)
      rw [List.find?_cons_of_neg _ (by simp [hf]), ih]

/-! ## Removal phase lemmas -/

theorem removePhase_state (s : StoreState) (l : List String) :
    (removePhase s l).1 =
      { chunks := s.chunks.filter (fun c => !(l.contains c.filePath)),
        docs := s.docs.filter (fun d => !(l.contains d.path)) } := by
  induction l generalizing s with
  | nil =>
    simp only [removePhase, List.contains_nil, Bool.not_false, List.filter_true]
  | cons p rest ih =>
    show (removePhase (deleteDocument (deleteByFile s p) p) rest).1 = _
    rw [ih]
    unfold deleteByFile deleteDocument
    simp only [List.filter_filter]
    congr 1
    · apply List.filter_congr
      intro c _
      by_cases hc : c.filePath = p <;> simp [hc, List.contains_cons]
    · apply List.filter_congr
      intro d _
      by_cases hd : d.path = p <;> simp [hd, List.contains_cons]

theorem removePhase_trace (s : StoreState) (l : List String) :
    (removePhase s l).2.1 = removeOps l := by
  induction l generalizing s with
  | nil => rfl
  | cons p rest ih =>
    show _ ++ (removePhase _ rest).2.1 = _
    rw [ih]
    rfl

theorem removePhase_count (s : StoreState) (l : List String) :
    (removePhase s l).2.2 = l.length := by
  induction l generalizing s with
  | nil => rfl
  | cons p rest ih =>
    show (removePhase _ rest).2.2 + 1 = _
    rw [ih]
    rfl

theorem removeOps_mem (l : List String) (op : Op) :
    op ∈ removeOps l ↔
      ∃ p ∈ l, op = Op.deleteByFile p ∨ op = Op.deleteDocument p := by
  induction l with
  | nil => simp [removeOps]
  | cons q t ih =>
    show op ∈ Op.deleteByFile q :: Op.deleteDocument q :: removeOps t ↔ _
    constructor
    · intro hm
      rcases List.mem_cons.mp hm with h | hm2
      · exact ⟨q, List.mem_cons_self q t, Or.inl h⟩
      rcases List.mem_cons.mp hm2 with h | hm3
      · exact ⟨q, List.mem_cons_self q t, Or.inr h⟩
      · obtain ⟨p, hp, hd⟩ := ih.mp hm3
        exact ⟨p, List.mem_cons_of_mem q hp, hd⟩
    · rintro ⟨p, hp, hd⟩
      rcases List.mem_cons.mp hp with he | hm
      · subst he
        rcases hd with h | h
        · exact List.mem_cons.mpr (Or.inl h)
        · exact List.mem_cons.mpr (Or.inr (List.mem_cons.mpr (Or.inl h)))
      · exact List.mem_cons.mpr (Or.inr (List.mem_cons.mpr
          (Or.inr (ih.mpr ⟨p, hm, hd⟩))))

theorem removeOps_perm {l1 l2 : List String} (h : l1.Perm l2) :
    (removeOps l1).Perm (removeOps l2) := by
  induction h with
  | nil => exact List.Perm.refl _
  | cons x _ ih => exact (ih.cons _).cons _
  | swap x y l =>
    show (Op.deleteByFile y :: Op.deleteDocument y :: Op.deleteByFile x ::
            Op.deleteDocument x :: removeOps l).Perm
         (Op.deleteByFile x :: Op.deleteDocument x :: Op.deleteByFile y ::
            Op.deleteDocument y :: removeOps l)
    have hb : ([Op.deleteByFile y, Op.deleteDocument y] ++
        [Op.deleteByFile x, Op.deleteDocument x]).Perm
        ([Op.deleteByFile x, Op.deleteDocument x] ++
        [Op.deleteByFile y, Op.deleteDocument y]) :=
      List.perm_append_comm
    simpa using hb.append_right (removeOps l)
  | trans _ _ ih1 ih2 => exact ih1.trans ih2

theorem contains_congr_of_perm {l1 l2 : List String} (h : l1.Perm l2)
    (a : String) : l1.contains a = l2.contains a := by
  by_cases hm : a ∈ l1
  · have h2 : a ∈ l2 := h.mem_iff.mp hm
    simp [hm, h2]
  · have h2 : a ∉ l2 := fun hx => hm (h.mem_iff.mpr hx)
    simp [hm, h2]

theorem removePhase_state_perm (s : StoreState) {l1 l2 : List String}
    (h : l1.Perm l2) : (removePhase s l1).1 = (removePhase s l2).1 := by
  rw [removePhase_state, removePhase_state]
  congr 1
  · apply List.filter_congr
    intro c _
    rw [contains_congr_of_perm h]
  · apply List.filter_congr
    intro d _
    rw [contains_congr_of_perm h]

theorem getDocument_removePhase (s : StoreState) (l : List String) (p : String) :
    getDocument (removePhase s l).1 p =
      if p ∈ l then none else getDocument s p := by
  rw [removePhase_state]
  unfold getDocument
  simp only
  by_cases hp : p ∈ l
  · rw [if_pos hp, List.find?_eq_none]
    intro d hd
    rw [List.mem_filter] at hd
    intro hdp
    rw [beq_iff_eq] at hdp
    rw [hdp] at hd
    simp [hp] at hd
  · rw [if_neg hp]
    apply find?_filter_eq
    intro d hd
    rw [beq_iff_eq] at hd
    rw [hd]
    simp [hp]

theorem chunksFor_removePhase (s : StoreState) (l : List String) (p : String) :
    chunksFor (removePhase s l).1 p =
      if p ∈ l then [] else chunksFor s p := by
  rw [removePhase_state]
  unfold chunksFor
  simp only [List.filter_filter]
  by_cases hp : p ∈ l
  · rw [if_pos hp, List.filter_eq_nil_iff]
    intro c _
    by_cases hc : c.filePath = p <;> simp [hc, hp]
  · rw [if_neg hp]
    apply List.filter_congr
    intro c _
    by_cases hc : c.filePath = p <;> simp [hc, hp]

theorem docs_removePhase_sub (s : StoreState) (l : List String)
    (d : Document) (hd : d ∈ (removePhase s l).1.docs) : d ∈ s.docs := by
  rw [removePhase_state] at hd
  exact List.mem_of_mem_filter hd

/-! ## IndexFile and loop step characterizations -/

theorem docHashMatches_congr {s1 s2 : StoreState} (f : FileInfo)
    (h : getDocument s1 f.path = getDocument s2 f.path) :
    docHashMatches s1 f = docHashMatches s2 f := by
  unfold docHashMatches
  rw [h]

theorem indexFile_empty (chunker : String → String → List ChunkInfo)
    (emb : List String → Option (List (List Rat))) (now : Int)
    (s : StoreState) (f : FileInfo)
    (he : (chunker f.path f.content).isEmpty = true) :
    indexFile chunker emb now s f =
      { state := deleteByFile s f.path, trace := [Op.deleteByFile f.path],
        chunkCount := some 0 } := by
  simp [indexFile, he]

theorem indexFile_fail (chunker : String → String → List ChunkInfo)
    (emb : List String → Option (List (List Rat))) (now : Int)
    (s : StoreState) (f : FileInfo)
    (he : (chunker f.path f.content).isEmpty = false)
    (hemb : emb ((chunker f.path f.content).map (fun i => i.content)) = none) :
    indexFile chunker emb now s f =
      { state := deleteByFile s f.path,
        trace := [Op.deleteByFile f.path,
          Op.embedBatch ((chunker f.path f.content).map (fun i => i.content))],
        chunkCount := none } := by
  simp [indexFile, he, hemb]

theorem indexFile_ok (chunker : String → String → List ChunkInfo)
    (emb : List String → Option (List (List Rat))) (now : Int)
    (s : StoreState) (f : FileInfo) (vs : List (List Rat))
    (he : (chunker f.path f.content).isEmpty = false)
    (hemb : emb ((chunker f.path f.content).map (fun i => i.content)) = some vs) :
    indexFile chunker emb now s f =
      { state := saveDocument
          (saveChunks (deleteByFile s f.path)
            (mkChunks now (chunker f.path f.content) vs))
          (docFor f (chunker f.path f.content)),
        trace := [Op.deleteByFile f.path,
          Op.embedBatch ((chunker f.path f.content).map (fun i => i.content)),
          Op.saveChunks (mkChunks now (chunker f.path f.content) vs),
          Op.saveDocument (docFor f (chunker f.path f.content))],
        chunkCount := some (chunker f.path f.content).length } := by
  simp [indexFile, he, hemb]

theorem indexFileOps_empty (chunker : String → String → List ChunkInfo)
    (emb : List String → Option (List (List Rat))) (now : Int) (f : FileInfo)
    (he : (chunker f.path f.content).isEmpty = true) :
    indexFileOps chunker emb now f = [Op.deleteByFile f.path] := by
  simp [indexFileOps, he]

theorem indexFileOps_fail (chunker : String → String → List ChunkInfo)
    (emb : List String → Option (List (List Rat))) (now : Int) (f : FileInfo)
    (he : (chunker f.path f.content).isEmpty = false)
    (hemb : emb ((chunker f.path f.content).map (fun i => i.content)) = none) :
    indexFileOps chunker emb now f =
      [Op.deleteByFile f.path,
       Op.embedBatch ((chunker f.path f.content).map (fun i => i.content))] := by
  simp [indexFileOps, he, hemb]

theorem indexFileOps_ok (chunker : String → String → List ChunkInfo)
    (emb : List String → Option (List (List Rat))) (now : Int) (f : FileInfo)
    (vs : List (List Rat))
    (he : (chunker f.path f.content).isEmpty = false)
    (hemb : emb ((chunker f.path f.content).map (fun i => i.content)) = some vs) :
    indexFileOps chunker emb now f =
      [Op.deleteByFile f.path,
       Op.embedBatch ((chunker f.path f.content).map (fun i => i.content)),
       Op.saveChunks (mkChunks now (chunker f.path f.content) vs),
       Op.saveDocument (docFor f (chunker f.path f.content))] := by
  simp [indexFileOps, he, hemb]

theorem indexStep_skip (chunker : String → String → List ChunkInfo)
    (emb : List String → Option (List (List Rat))) (now : Int)
    (ls : LoopState) (f : FileInfo)
    (hm : docHashMatches ls.store f = true) :
    indexStep chunker emb now ls f =
      { ls with existingSet := eraseKey ls.existingSet f.path,
                trace := ls.trace ++ [Op.getDocument f.path] } := by
  simp [indexStep, hm]

theorem indexStep_fail (chunker : String → String → List ChunkInfo)
    (emb : List String → Option (List (List Rat))) (now : Int)
    (ls : LoopState) (f : FileInfo)
    (hm : docHashMatches ls.store f = false)
    (he : (chunker f.path f.content).isEmpty = false)
    (hemb : emb ((chunker f.path f.content).map (fun i => i.content)) = none) :
    indexStep chunker emb now ls f =
      { ls with store := deleteByFile ls.store f.path,
                trace := (ls.trace ++ [Op.getDocument f.path]) ++
                  [Op.deleteByFile f.path,
                   Op.embedBatch ((chunker f.path f.content).map
                     (fun i => i.content))] } := by
  simp [indexStep, hm, indexFile_fail chunker emb now ls.store f he hemb]

theorem indexStep_empty (chunker : String → String → List ChunkInfo)
    (emb : List String → Option (List (List Rat))) (now : Int)
    (ls : LoopState) (f : FileInfo)
    (hm : docHashMatches ls.store f = false)
    (he : (chunker f.path f.content).isEmpty = true) :
    indexStep chunker emb now ls f =
      { store := deleteByFile ls.store f.path,
        existingSet := eraseKey ls.existingSet f.path,
        filesIndexed := ls.filesIndexed + 1,
        chunksCreated := ls.chunksCreated + 0,
        trace := (ls.trace ++ [Op.getDocument f.path]) ++
          [Op.deleteByFile f.path] } := by
  simp [indexStep, hm, indexFile_empty chunker emb now ls.store f he]

theorem indexStep_ok (chunker : String → String → List ChunkInfo)
    (emb : List String → Option (List (List Rat))) (now : Int)
    (ls : LoopState) (f : FileInfo) (vs : List (List Rat))
    (hm : docHashMatches ls.store f = false)
    (he : (chunker f.path f.content).isEmpty = false)
    (hemb : emb ((chunker f.path f.content).map (fun i => i.content)) = some vs) :
    indexStep chunker emb now ls f =
      { store := saveDocument
          (saveChunks (deleteByFile ls.store f.path)
            (mkChunks now (chunker f.path f.content) vs))
          (docFor f (chunker f.path f.content)),
        existingSet := eraseKey ls.existingSet f.path,
        filesIndexed := ls.filesIndexed + 1,
        chunksCreated := ls.chunksCreated + (chunker f.path f.content).length,
        trace := (ls.trace ++ [Op.getDocument f.path]) ++
          [Op.deleteByFile f.path,
           Op.embedBatch ((chunker f.path f.content).map (fun i => i.content)),
           Op.saveChunks (mkChunks now (chunker f.path f.content) vs),
           Op.saveDocument (docFor f (chunker f.path f.content))] } := by
  simp [indexStep, hm, indexFile_ok chunker emb now ls.store f vs he hemb]

/-! ## Claim C1: IndexAll and persist -/

theorem indexAll_eq (chunker : String → String → List ChunkInfo)
    (emb : List String → Option (List (List Rat)))
    (now : Int) (mapOrder : List String → List String)
    (s0 : StoreState) (files : List FileInfo) (skipped : List String) :
    indexAll chunker emb now mapOrder s0 files skipped =
      { stats := { filesIndexed :=
                     (indexLoop chunker emb now (startState s0) files).filesIndexed,
                   filesSkipped := skipped.length,
                   chunksCreated :=
                     (indexLoop chunker emb now (startState s0) files).chunksCreated,
                   filesRemoved :=
                     (removePhase (indexLoop chunker emb now (startState s0) files).store
                       (mapOrder (indexLoop chunker emb now
                         (startState s0) files).existingSet)).2.2 },
        trace := (indexLoop chunker emb now (startState s0) files).trace ++
          (removePhase (indexLoop chunker emb now (startState s0) files).store
            (mapOrder (indexLoop chunker emb now
              (startState s0) files).existingSet)).2.1,
        state := (removePhase (indexLoop chunker emb now (startState s0) files).store
          (mapOrder (indexLoop chunker emb now
            (startState s0) files).existingSet)).1 } := rfl

theorem indexFileOps_no_persist (chunker : String → String → List ChunkInfo)
    (emb : List String → Option (List (List Rat))) (now : Int) (f : FileInfo) :
    Op.persist ∉ indexFileOps chunker emb now f := by
  cases he : (chunker f.path f.content).isEmpty
  · cases hemb : emb ((chunker f.path f.content).map (fun i => i.content)) <;>
      simp [indexFileOps, he, hemb]
  · simp [indexFileOps, he]

theorem stepOps_no_persist (chunker : String → String → List ChunkInfo)
    (emb : List String → Option (List (List Rat))) (now : Int)
    (s0 : StoreState) (f : FileInfo) :
    Op.persist ∉ stepOps chunker emb now s0 f := by
  intro hmem
  unfold stepOps at hmem
  rcases List.mem_cons.mp hmem with h | h
  · exact Op.noConfusion h
  · by_cases hm : docHashMatches s0 f = true
    · rw [if_pos hm] at h
      exact absurd h (List.not_mem_nil _)
    · rw [if_neg hm] at h
      exact indexFileOps_no_persist chunker emb now f h

theorem indexStep_trace_no_persist (chunker : String → String → List ChunkInfo)
    (emb : List String → Option (List (List Rat))) (now : Int)
    (ls : LoopState) (f : FileInfo)
    (h : Op.persist ∉ ls.trace) :
    Op.persist ∉ (indexStep chunker emb now ls f).trace := by
  by_cases hm : docHashMatches ls.store f = true
  · rw [indexStep_skip chunker emb now ls f hm]
    simp [List.mem_append, h]
  · have hm2 : docHashMatches ls.store f = false := by simpa using hm
    cases he : (chunker f.path f.content).isEmpty
    · cases hemb : emb ((chunker f.path f.content).map (fun i => i.content))
      · rw [indexStep_fail chunker emb now ls f hm2 he hemb]
        simp [List.mem_append, h]
      · rw [indexStep_ok chunker emb now ls f _ hm2 he hemb]
        simp [List.mem_append, h]
    · rw [indexStep_empty chunker emb now ls f hm2 he]
      simp [List.mem_append, h]

theorem indexLoop_trace_no_persist (chunker : String → String → List ChunkInfo)
    (emb : List String → Option (List (List Rat))) (now : Int)
    (files : List FileInfo) (ls : LoopState)
    (h : Op.persist ∉ ls.trace) :
    Op.persist ∉ (indexLoop chunker emb now ls files).trace := by
  induction files generalizing ls with
  | nil => exact h
  | cons f rest ih =>
    exact ih _ (indexStep_trace_no_persist chunker emb now ls f h)

/-- Counterexample to C1 as stated: a concrete IndexAll run that returns
successfully whose operation trace contains no persist call. -/
theorem indexAll_persist_counterexample :
    Op.persist ∉ (indexAll cChunker cEmb 0 id cStore [] []).trace := by
  decide

/-- Claim C1 (amended): IndexAll never issues a persist operation; flushing
the store to durable storage is left to the caller of IndexAll. -/
theorem indexAll_no_persist (chunker : String → String → List ChunkInfo)
    (emb : List String → Option (List (List Rat)))
    (now : Int) (mapOrder : List String → List String)
    (s0 : StoreState) (files : List FileInfo) (skipped : List String) :
    Op.persist ∉ (indexAll chunker emb now mapOrder s0 files skipped).trace := by
  rw [indexAll_eq]
  intro hmem
  rcases List.mem_append.mp hmem with h | h
  · exact indexLoop_trace_no_persist chunker emb now files (startState s0)
      (by simp [startState]) h
  · rw [removePhase_trace] at h
    rcases (removeOps_mem _ _).mp h with ⟨p, _, hd | hd⟩ <;> exact Op.noConfusion hd

/-! ## Claim C2: referential integrity broken by zero-chunk re-index -/

/-- Claim C2 is violated by the code: starting from a store satisfying
referential integrity, one IndexFile call on a previously indexed file
whose new content yields zero chunks deletes the chunks, returns
successfully, and leaves the old document dangling. -/
theorem indexFile_refIntegrity_bug :
    refIntegrity cStore = true ∧
    (indexFile cChunker cEmb 1 cStore cFileEmptied).chunkCount = some 0 ∧
    refIntegrity (indexFile cChunker cEmb 1 cStore cFileEmptied).state = false := by
  decide

/-! ## Loop preservation lemmas -/

theorem docFor_path (f : FileInfo) (infos : List ChunkInfo) :
    (docFor f infos).path = f.path := rfl

theorem indexStep_getDocument_ne (chunker : String → String → List ChunkInfo)
    (emb : List String → Option (List (List Rat))) (now : Int)
    (ls : LoopState) (f : FileInfo) (p : String)
    (hp : ¬ f.path = p) :
    getDocument (indexStep chunker emb now ls f).store p =
      getDocument ls.store p := by
  by_cases hm : docHashMatches ls.store f = true
  · rw [indexStep_skip chunker emb now ls f hm]
  · have hm2 : docHashMatches ls.store f = false := by simpa using hm
    cases he : (chunker f.path f.content).isEmpty
    · cases hemb : emb ((chunker f.path f.content).map (fun i => i.content))
      · rw [indexStep_fail chunker emb now ls f hm2 he hemb]
        rfl
      · rw [indexStep_ok chunker emb now ls f _ hm2 he hemb]
        show getDocument (saveDocument _ _) p = _
        rw [getDocument_saveDocument_ne _ _ _ (by rw [docFor_path]; exact hp)]
        rfl
    · rw [indexStep_empty chunker emb now ls f hm2 he]
      rfl

theorem indexStep_chunksFor_nil (chunker : String → String → List ChunkInfo)
    (emb : List String → Option (List (List Rat))) (now : Int)
    (ls : LoopState) (f : FileInfo) (p : String)
    (hch : ∀ p2 c, ∀ i ∈ chunker p2 c, i.filePath = p2)
    (hp : ¬ f.path = p)
    (h : chunksFor ls.store p = []) :
    chunksFor (indexStep chunker emb now ls f).store p = [] := by
  by_cases hm : docHashMatches ls.store f = true
  · rw [indexStep_skip chunker emb now ls f hm]
    exact h
  · have hm2 : docHashMatches ls.store f = false := by simpa using hm
    cases he : (chunker f.path f.content).isEmpty
    · cases hemb : emb ((chunker f.path f.content).map (fun i => i.content))
      · rw [indexStep_fail chunker emb now ls f hm2 he hemb]
        show chunksFor (deleteByFile _ _) p = []
        rw [chunksFor_deleteByFile, if_neg hp, h]
      · rw [indexStep_ok chunker emb now ls f _ hm2 he hemb]
        show chunksFor (saveDocument _ _) p = []
        rw [chunksFor_saveDocument]
        apply chunksFor_saveChunks_nil
        · rw [chunksFor_deleteByFile, if_neg hp, h]
        · intro c hc
          obtain ⟨i, hi, hx⟩ := mkChunks_filePath now _ _ c hc
          rw [hx, hch f.path f.content i hi]
          exact hp
    · rw [indexStep_empty chunker emb now ls f hm2 he]
      show chunksFor (deleteByFile _ _) p = []
      rw [chunksFor_deleteByFile, if_neg hp, h]

theorem indexStep_docs_sub (chunker : String → String → List ChunkInfo)
    (emb : List String → Option (List (List Rat))) (now : Int)
    (ls : LoopState) (f : FileInfo) (d : Document)
    (hd : d ∈ (indexStep chunker emb now ls f).store.docs) :
    d ∈ ls.store.docs ∨ d.path = f.path := by
  by_cases hm : docHashMatches ls.store f = true
  · rw [indexStep_skip chunker emb now ls f hm] at hd
    exact Or.inl hd
  · have hm2 : docHashMatches ls.store f = false := by simpa using hm
    cases he : (chunker f.path f.content).isEmpty
    · cases hemb : emb ((chunker f.path f.content).map (fun i => i.content))
      · rw [indexStep_fail chunker emb now ls f hm2 he hemb] at hd
        exact Or.inl hd
      · rw [indexStep_ok chunker emb now ls f _ hm2 he hemb] at hd
        have hd2 : d ∈ (saveDocument (saveChunks (deleteByFile ls.store f.path)
            (mkChunks now (chunker f.path f.content) _))
            (docFor f (chunker f.path f.content))).docs := hd
        unfold saveDocument at hd2
        simp only [docs_saveChunks, docs_deleteByFile] at hd2
        rcases List.mem_append.mp hd2 with h2 | h2
        · exact Or.inl (List.mem_of_mem_filter h2)
        · rcases List.mem_cons.mp h2 with h3 | h3
          · rw [h3]
            exact Or.inr (docFor_path f _)
          · exact absurd h3 (List.not_mem_nil d)
    · rw [indexStep_empty chunker emb now ls f hm2 he] at hd
      exact Or.inl hd

theorem indexLoop_getDocument_ne (chunker : String → String → List ChunkInfo)
    (emb : List String → Option (List (List Rat))) (now : Int)
    (files : List FileInfo) (ls : LoopState) (p : String)
    (hp : ∀ f ∈ files, ¬ f.path = p) :
    getDocument (indexLoop chunker emb now ls files).store p =
      getDocument ls.store p := by
  induction files generalizing ls with
  | nil => rfl
  | cons f rest ih =>
    rw [show indexLoop chunker emb now ls (f :: rest) =
      indexLoop chunker emb now (indexStep chunker emb now ls f) rest from rfl]
    rw [ih _ (fun g hg => hp g (List.mem_cons_of_mem f hg))]
    exact indexStep_getDocument_ne chunker emb now ls f p
      (hp f (List.mem_cons_self f rest))

theorem indexLoop_chunksFor_nil (chunker : String → String → List ChunkInfo)
    (emb : List String → Option (List (List Rat))) (now : Int)
    (files : List FileInfo) (ls : LoopState) (p : String)
    (hch : ∀ p2 c, ∀ i ∈ chunker p2 c, i.filePath = p2)
    (hp : ∀ f ∈ files, ¬ f.path = p)
    (h : chunksFor ls.store p = []) :
    chunksFor (indexLoop chunker emb now ls files).store p = [] := by
  induction files generalizing ls with
  | nil => exact h
  | cons f rest ih =>
    rw [show indexLoop chunker emb now ls (f :: rest) =
      indexLoop chunker emb now (indexStep chunker emb now ls f) rest from rfl]
    exact ih _ (fun g hg => hp g (List.mem_cons_of_mem f hg))
      (indexStep_chunksFor_nil chunker emb now ls f p hch
        (hp f (List.mem_cons_self f rest)) h)

theorem indexLoop_docs_sub (chunker : String → String → List ChunkInfo)
    (emb : List String → Option (List (List Rat))) (now : Int)
    (files : List FileInfo) (ls : LoopState) (d : Document)
    (hd : d ∈ (indexLoop chunker emb now ls files).store.docs) :
    d ∈ ls.store.docs ∨ d.path ∈ files.map (fun f => f.path) := by
  induction files generalizing ls with
  | nil => exact Or.inl hd
  | cons f rest ih =>
    rw [show indexLoop chunker emb now ls (f :: rest) =
      indexLoop chunker emb now (indexStep chunker emb now ls f) rest from rfl] at hd
    rcases ih (indexStep chunker emb now ls f) hd with h2 | h2
    · rcases indexStep_docs_sub chunker emb now ls f d h2 with h3 | h3
      · exact Or.inl h3
      · exact Or.inr (by rw [List.map_cons]; exact List.mem_cons.mpr (Or.inl h3))
    · exact Or.inr (by rw [List.map_cons]; exact List.mem_cons.mpr (Or.inr h2))

/-! ## Loop characterization -/

theorem indexLoop_counts (chunker : String → String → List ChunkInfo)
    (emb : List String → Option (List (List Rat))) (now : Int)
    (s0 : StoreState) (files : List FileInfo) (ls : LoopState)
    (hnd : (files.map (fun f => f.path)).Nodup)
    (hagree : ∀ f ∈ files, getDocument ls.store f.path = getDocument s0 f.path) :
    (indexLoop chunker emb now ls files).filesIndexed =
        ls.filesIndexed + (files.filter (fileIndexed chunker emb s0)).length ∧
    (indexLoop chunker emb now ls files).chunksCreated =
        ls.chunksCreated + ((files.filter (fileIndexed chunker emb s0)).map
          (fun f => (chunker f.path f.content).length)).sum ∧
    (indexLoop chunker emb now ls files).existingSet =
        ls.existingSet.filter (fun p => !(files.any (fun f2 =>
          f2.path == p && fileErased chunker emb s0 f2))) ∧
    (indexLoop chunker emb now ls files).trace =
        ls.trace ++ loopOps chunker emb now s0 files := by
  induction files generalizing ls with
  | nil =>
    refine ⟨rfl, rfl, by simp [indexLoop], by simp [indexLoop, loopOps]⟩
  | cons f rest ih =>
    rw [show indexLoop chunker emb now ls (f :: rest) =
      indexLoop chunker emb now (indexStep chunker emb now ls f) rest from rfl]
    have hnd2 : (rest.map (fun f => f.path)).Nodup := by
      rw [List.map_cons] at hnd
      exact (List.nodup_cons.mp hnd).2
    have hfp : f.path ∉ rest.map (fun f => f.path) := by
      rw [List.map_cons] at hnd
      exact (List.nodup_cons.mp hnd).1
    have hne : ∀ g ∈ rest, ¬ f.path = g.path := by
      intro g hg he2
      exact hfp (he2 ▸ List.mem_map_of_mem _ hg)
    have hagree2 : ∀ g ∈ rest,
        getDocument (indexStep chunker emb now ls f).store g.path =
          getDocument s0 g.path := by
      intro g hg
      rw [indexStep_getDocument_ne chunker emb now ls f g.path (hne g hg)]
      exact hagree g (List.mem_cons_of_mem f hg)
    obtain ⟨ih1, ih2, ih3, ih4⟩ := ih (indexStep chunker emb now ls f) hnd2 hagree2
    have hmagree : docHashMatches ls.store f = docHashMatches s0 f :=
      docHashMatches_congr f (hagree f (List.mem_cons_self f rest))
    by_cases hm0 : docHashMatches s0 f = true
    · have hm : docHashMatches ls.store f = true := by rw [hmagree]; exact hm0
      have hidx : fileIndexed chunker emb s0 f = false := by
        simp [fileIndexed, hm0]
      have hers : fileErased chunker emb s0 f = true := by
        simp [fileErased, hm0]
      refine ⟨?_, ?_, ?_, ?_⟩
      · rw [ih1, indexStep_skip chunker emb now ls f hm]
        simp [List.filter_cons, hidx]
      · rw [ih2, indexStep_skip chunker emb now ls f hm]
        simp [List.filter_cons, hidx]
      · rw [ih3, indexStep_skip chunker emb now ls f hm]
        show (eraseKey ls.existingSet f.path).filter _ = _
        simp only [eraseKey]
        rw [List.filter_filter]
        apply List.filter_congr
        intro x _
        by_cases hx : x = f.path
        · simp [hx, hers]
        · have hx2 : ¬ f.path = x := fun h2 => hx h2.symm
          have hb1 : (x == f.path) = false := by simp [hx]
          have hb2 : (f.path == x) = false := by simp [hx2]
          simp [List.any_cons, hb1, hb2, hers, Bool.and_comm]
      · rw [ih4, indexStep_skip chunker emb now ls f hm]
        show (ls.trace ++ [Op.getDocument f.path]) ++ _ = _
        rw [List.append_assoc]
        congr 1
        simp [loopOps, stepOps, hm0]
    · have hm0f : docHashMatches s0 f = false := by simpa using hm0
      have hm : docHashMatches ls.store f = false := by rw [hmagree]; exact hm0f
      cases he : (chunker f.path f.content).isEmpty with
      | false =>
        cases hemb : emb ((chunker f.path f.content).map (fun i => i.content)) with
        | none =>
          have hidx : fileIndexed chunker emb s0 f = false := by
            simp [fileIndexed, embFails, chunkerEmpty, he, hemb]
          have hers : fileErased chunker emb s0 f = false := by
            simp [fileErased, embFails, chunkerEmpty, he, hemb, hm0f]
          refine ⟨?_, ?_, ?_, ?_⟩
          · rw [ih1, indexStep_fail chunker emb now ls f hm he hemb]
            simp [List.filter_cons, hidx]
          · rw [ih2, indexStep_fail chunker emb now ls f hm he hemb]
            simp [List.filter_cons, hidx]
          · rw [ih3, indexStep_fail chunker emb now ls f hm he hemb]
            show ls.existingSet.filter _ = ls.existingSet.filter _
            apply List.filter_congr
            intro x _
            simp [hers]
          · rw [ih4, indexStep_fail chunker emb now ls f hm he hemb]
            show ((ls.trace ++ [Op.getDocument f.path]) ++ _) ++ _ = _
            rw [List.append_assoc, List.append_assoc]
            congr 1
            simp [loopOps, stepOps, hm0f,
              indexFileOps_fail chunker emb now f he hemb]
        | some vs =>
          have hidx : fileIndexed chunker emb s0 f = true := by
            simp [fileIndexed, embFails, chunkerEmpty, he, hemb, hm0f]
          have hers : fileErased chunker emb s0 f = true := by
            simp [fileErased, embFails, chunkerEmpty, he, hemb]
          refine ⟨?_, ?_, ?_, ?_⟩
          · rw [ih1, indexStep_ok chunker emb now ls f vs hm he hemb]
            simp only [List.filter_cons, hidx, if_true, List.length_cons]
            show ls.filesIndexed + 1 + _ = _
            omega
          · rw [ih2, indexStep_ok chunker emb now ls f vs hm he hemb]
            simp only [List.filter_cons, hidx, if_true, List.map_cons,
              List.sum_cons]
            show ls.chunksCreated + (chunker f.path f.content).length + _ = _
            omega
          · rw [ih3, indexStep_ok chunker emb now ls f vs hm he hemb]
            show (eraseKey ls.existingSet f.path).filter _ = _
            simp only [eraseKey]
            rw [List.filter_filter]
            apply List.filter_congr
            intro x _
            by_cases hx : x = f.path
            · simp [hx, hers]
            · have hx2 : ¬ f.path = x := fun h2 => hx h2.symm
              have hb1 : (x == f.path) = false := by simp [hx]
              have hb2 : (f.path == x) = false := by simp [hx2]
              simp [List.any_cons, hb1, hb2, hers, Bool.and_comm]
          · rw [ih4, indexStep_ok chunker emb now ls f vs hm he hemb]
            show ((ls.trace ++ [Op.getDocument f.path]) ++ _) ++ _ = _
            rw [List.append_assoc, List.append_assoc]
            congr 1
            simp [loopOps, stepOps, hm0f,
              indexFileOps_ok chunker emb now f vs he hemb]
      | true =>
        have hl : chunker f.path f.content = [] := by
          simpa using he
        have hidx : fileIndexed chunker emb s0 f = true := by
          simp [fileIndexed, embFails, chunkerEmpty, he, hm0f]
        have hers : fileErased chunker emb s0 f = true := by
          simp [fileErased, embFails, chunkerEmpty, he]
        refine ⟨?_, ?_, ?_, ?_⟩
        · rw [ih1, indexStep_empty chunker emb now ls f hm he]
          simp only [List.filter_cons, hidx, if_true, List.length_cons]
          show ls.filesIndexed + 1 + _ = _
          omega
        · rw [ih2, indexStep_empty chunker emb now ls f hm he]
          simp only [List.filter_cons, hidx, if_true, List.map_cons,
            List.sum_cons]
          show ls.chunksCreated + 0 + _ = _
          rw [hl]
          simp
        · rw [ih3, indexStep_empty chunker emb now ls f hm he]
          show (eraseKey ls.existingSet f.path).filter _ = _
          simp only [eraseKey]
          rw [List.filter_filter]
          apply List.filter_congr
          intro x _
          by_cases hx : x = f.path
          · simp [hx, hers]
          · have hx2 : ¬ f.path = x := fun h2 => hx h2.symm
            have hb1 : (x == f.path) = false := by simp [hx]
            have hb2 : (f.path == x) = false := by simp [hx2]
            simp [List.any_cons, hb1, hb2, hers, Bool.and_comm]
        · rw [ih4, indexStep_empty chunker emb now ls f hm he]
          show ((ls.trace ++ [Op.getDocument f.path]) ++ _) ++ _ = _
          rw [List.append_assoc, List.append_assoc]
          congr 1
          simp [loopOps, stepOps, hm0f,
            indexFileOps_empty chunker emb now f he]

theorem indexLoop_file_facts (chunker : String → String → List ChunkInfo)
    (emb : List String → Option (List (List Rat))) (now : Int)
    (s0 : StoreState) (files : List FileInfo) (ls : LoopState)
    (hch : ∀ p2 c, ∀ i ∈ chunker p2 c, i.filePath = p2)
    (hnd : (files.map (fun f => f.path)).Nodup)
    (hagree : ∀ f ∈ files, getDocument ls.store f.path = getDocument s0 f.path) :
    ∀ f ∈ files,
      (docHashMatches s0 f = true →
        getDocument (indexLoop chunker emb now ls files).store f.path =
          getDocument s0 f.path) ∧
      (docHashMatches s0 f = false → embFails chunker emb f = false →
        (chunker f.path f.content).isEmpty = false →
        getDocument (indexLoop chunker emb now ls files).store f.path =
          some (docFor f (chunker f.path f.content))) ∧
      (docHashMatches s0 f = false →
        (chunker f.path f.content).isEmpty = true →
        chunksFor (indexLoop chunker emb now ls files).store f.path = [] ∧
        getDocument (indexLoop chunker emb now ls files).store f.path =
          getDocument s0 f.path) := by
  induction files generalizing ls with
  | nil =>
    intro f hf
    exact absurd hf (List.not_mem_nil f)
  | cons g rest ih =>
    have hnd2 : (rest.map (fun f => f.path)).Nodup := by
      rw [List.map_cons] at hnd
      exact (List.nodup_cons.mp hnd).2
    have hfp : g.path ∉ rest.map (fun f => f.path) := by
      rw [List.map_cons] at hnd
      exact (List.nodup_cons.mp hnd).1
    have hne : ∀ r ∈ rest, ¬ g.path = r.path := by
      intro r hr he2
      exact hfp (he2 ▸ List.mem_map_of_mem _ hr)
    have hagree2 : ∀ r ∈ rest,
        getDocument (indexStep chunker emb now ls g).store r.path =
          getDocument s0 r.path := by
      intro r hr
      rw [indexStep_getDocument_ne chunker emb now ls g r.path (hne r hr)]
      exact hagree r (List.mem_cons_of_mem g hr)
    intro f hf
    rw [show indexLoop chunker emb now ls (g :: rest) =
      indexLoop chunker emb now (indexStep chunker emb now ls g) rest from rfl]
    rcases List.mem_cons.mp hf with hfg | hfr
    · subst hfg
      have hne2 : ∀ r ∈ rest, ¬ r.path = f.path := by
        intro r hr he2
        exact hne r hr he2.symm
      have hmagree : docHashMatches ls.store f = docHashMatches s0 f :=
        docHashMatches_congr f (hagree f (List.mem_cons_self f rest))
      refine ⟨?_, ?_, ?_⟩
      · intro hm0
        have hm : docHashMatches ls.store f = true := by rw [hmagree]; exact hm0
        rw [indexLoop_getDocument_ne chunker emb now rest _ f.path hne2]
        rw [indexStep_skip chunker emb now ls f hm]
        exact hagree f (List.mem_cons_self f rest)
      · intro hm0 hfail he
        have hm : docHashMatches ls.store f = false := by rw [hmagree]; exact hm0
        cases hemb : emb ((chunker f.path f.content).map (fun i => i.content)) with
        | none =>
          rw [embFails, chunkerEmpty, he, hemb] at hfail
          simp at hfail
        | some vs =>
          rw [indexLoop_getDocument_ne chunker emb now rest _ f.path hne2]
          rw [indexStep_ok chunker emb now ls f vs hm he hemb]
          show getDocument (saveDocument _ _) f.path = _
          have hself := getDocument_saveDocument_self
            (saveChunks (deleteByFile ls.store f.path)
              (mkChunks now (chunker f.path f.content) vs))
            (docFor f (chunker f.path f.content))
          rw [docFor_path] at hself
          exact hself
      · intro hm0 he
        have hm : docHashMatches ls.store f = false := by rw [hmagree]; exact hm0
        constructor
        · apply indexLoop_chunksFor_nil chunker emb now rest _ f.path hch hne2
          rw [indexStep_empty chunker emb now ls f hm he]
          show chunksFor (deleteByFile _ _) f.path = []
          rw [chunksFor_deleteByFile, if_pos rfl]
        · rw [indexLoop_getDocument_ne chunker emb now rest _ f.path hne2]
          rw [indexStep_empty chunker emb now ls f hm he]
          exact hagree f (List.mem_cons_self f rest)
    · exact ih (indexStep chunker emb now ls g) hnd2 hagree2 f hfr

/-! ## Shared consequences of the loop characterization -/

theorem any_congr {α : Type} (l : List α) (p q : α → Bool)
    (h : ∀ a ∈ l, p a = q a) : l.any p = l.any q := by
  induction l with
  | nil => rfl
  | cons a t ih =>
    simp only [List.any_cons, h a (List.mem_cons_self a t)]
    rw [ih (fun b hb => h b (List.mem_cons_of_mem _ hb))]

theorem docFor_hash (f : FileInfo) (infos : List ChunkInfo) :
    (docFor f infos).hash = f.hash := rfl

theorem embFails_of_total (chunker : String → String → List ChunkInfo)
    (emb : List String → Option (List (List Rat)))
    (hemb : ∀ cs, emb cs ≠ none) (f : FileInfo) :
    embFails chunker emb f = false := by
  cases h : emb ((chunker f.path f.content).map (fun i => i.content)) with
  | none => exact absurd h (hemb _)
  | some v => simp [embFails, h]

theorem fileErased_of_total (chunker : String → String → List ChunkInfo)
    (emb : List String → Option (List (List Rat)))
    (hemb : ∀ cs, emb cs ≠ none) (s0 : StoreState) (f : FileInfo) :
    fileErased chunker emb s0 f = true := by
  rw [fileErased, embFails_of_total chunker emb hemb f]
  simp

theorem existingSet_of_total (chunker : String → String → List ChunkInfo)
    (emb : List String → Option (List (List Rat))) (now : Int)
    (s0 : StoreState) (files : List FileInfo)
    (hnd : (files.map (fun f => f.path)).Nodup)
    (hemb : ∀ cs, emb cs ≠ none) :
    (indexLoop chunker emb now (startState s0) files).existingSet =
      (listDocuments s0).dedup.filter
        (fun p => !(files.any (fun f2 => f2.path == p))) := by
  obtain ⟨_, _, h3, _⟩ := indexLoop_counts chunker emb now s0 files
    (startState s0) hnd (fun f _ => rfl)
  rw [h3]
  show ((listDocuments s0).dedup).filter _ = _
  apply List.filter_congr
  intro p _
  have hpt : ∀ f2 ∈ files,
      (f2.path == p && fileErased chunker emb s0 f2) = (f2.path == p) := by
    intro f2 _
    rw [fileErased_of_total chunker emb hemb s0 f2]
    simp
  rw [any_congr files _ _ hpt]

theorem indexFileOps_no_deleteDocument (chunker : String → String → List ChunkInfo)
    (emb : List String → Option (List (List Rat))) (now : Int) (f : FileInfo)
    (p : String) :
    Op.deleteDocument p ∉ indexFileOps chunker emb now f := by
  cases he : (chunker f.path f.content).isEmpty
  · cases hemb : emb ((chunker f.path f.content).map (fun i => i.content)) <;>
      simp [indexFileOps, he, hemb]
  · simp [indexFileOps, he]

theorem stepOps_no_deleteDocument (chunker : String → String → List ChunkInfo)
    (emb : List String → Option (List (List Rat))) (now : Int)
    (s0 : StoreState) (f : FileInfo) (p : String) :
    Op.deleteDocument p ∉ stepOps chunker emb now s0 f := by
  intro hmem
  unfold stepOps at hmem
  rcases List.mem_cons.mp hmem with h | h
  · exact Op.noConfusion h
  · by_cases hm : docHashMatches s0 f = true
    · rw [if_pos hm] at h
      exact absurd h (List.not_mem_nil _)
    · rw [if_neg hm] at h
      exact indexFileOps_no_deleteDocument chunker emb now f p h

theorem loopOps_no_deleteDocument (chunker : String → String → List ChunkInfo)
    (emb : List String → Option (List (List Rat))) (now : Int)
    (s0 : StoreState) (files : List FileInfo) (p : String) :
    Op.deleteDocument p ∉ loopOps chunker emb now s0 files := by
  induction files with
  | nil => simp [loopOps]
  | cons f rest ih =>
    intro hmem
    rcases List.mem_append.mp hmem with h | h
    · exact stepOps_no_deleteDocument chunker emb now s0 f p h
    · exact ih h

theorem stepOps_mem_loopOps (chunker : String → String → List ChunkInfo)
    (emb : List String → Option (List (List Rat))) (now : Int)
    (s0 : StoreState) (files : List FileInfo) (f : FileInfo) (hf : f ∈ files)
    (op : Op) (hop : op ∈ stepOps chunker emb now s0 f) :
    op ∈ loopOps chunker emb now s0 files := by
  induction files with
  | nil => exact absurd hf (List.not_mem_nil f)
  | cons g rest ih =>
    rcases List.mem_cons.mp hf with h | h
    · subst h
      exact List.mem_append.mpr (Or.inl hop)
    · exact List.mem_append.mpr (Or.inr (ih h))

/-! ## Claim C6: determinism and ordering -/

/-- Counterexample to C6 as stated: two IndexAll runs on the same scan
result and store state, differing only in the (unspecified) Go map
iteration order of the removal phase — both orders enumerate the same set —
perform different operation sequences. -/
theorem indexAll_order_counterexample :
    (List.reverse ["a", "b"]).Perm ["a", "b"] ∧
    (indexAll cChunker cEmb 0 id cStoreAB [] []).trace ≠
      (indexAll cChunker cEmb 0 List.reverse cStoreAB [] []).trace := by
  constructor
  · decide
  · decide

/-- Claim C6 (amended): for a fixed scan result and store state the
indexing phase is deterministic (its trace is a function of the scan and
store alone, files processed in scan order), and the final store state and
all reported stats coincide across runs; the removal phase performs the
same multiset of operations but in the unspecified Go map iteration order,
so the two full traces are permutations of each other rather than equal. -/
theorem indexAll_deterministic (chunker : String → String → List ChunkInfo)
    (emb : List String → Option (List (List Rat))) (now : Int)
    (mo1 mo2 : List String → List String)
    (s0 : StoreState) (files : List FileInfo) (skipped : List String)
    (h1 : ∀ l, (mo1 l).Perm l) (h2 : ∀ l, (mo2 l).Perm l) :
    (indexAll chunker emb now mo1 s0 files skipped).state =
      (indexAll chunker emb now mo2 s0 files skipped).state ∧
    (indexAll chunker emb now mo1 s0 files skipped).stats =
      (indexAll chunker emb now mo2 s0 files skipped).stats ∧
    ((indexAll chunker emb now mo1 s0 files skipped).trace).Perm
      ((indexAll chunker emb now mo2 s0 files skipped).trace) ∧
    (∃ t, (indexAll chunker emb now mo1 s0 files skipped).trace =
        (indexLoop chunker emb now (startState s0) files).trace ++ t ∧
        t = removeOps (mo1 (indexLoop chunker emb now
          (startState s0) files).existingSet)) := by
  have hperm : (mo1 (indexLoop chunker emb now
        (startState s0) files).existingSet).Perm
      (mo2 (indexLoop chunker emb now (startState s0) files).existingSet) :=
    (h1 _).trans (h2 _).symm
  refine ⟨?_, ?_, ?_, ?_⟩
  · exact removePhase_state_perm _ hperm
  · show IndexStats.mk _ _ _ _ = IndexStats.mk _ _ _ _
    rw [removePhase_count, removePhase_count, hperm.length_eq]
  · show ((indexLoop chunker emb now (startState s0) files).trace ++
        (removePhase _ (mo1 _)).2.1).Perm
      ((indexLoop chunker emb now (startState s0) files).trace ++
        (removePhase _ (mo2 _)).2.1)
    rw [removePhase_trace, removePhase_trace]
    exact List.Perm.append_left _ (removeOps_perm hperm)
  · exact ⟨_, rfl, removePhase_trace _ _⟩

/-- Witness for C6 at a concrete store with two vanished documents and two
map orders. -/
theorem indexAll_deterministic_witness :
    (indexAll cChunker cEmb 0 id cStoreAB [] []).state =
      (indexAll cChunker cEmb 0 List.reverse cStoreAB [] []).state ∧
    (indexAll cChunker cEmb 0 id cStoreAB [] []).stats =
      (indexAll cChunker cEmb 0 List.reverse cStoreAB [] []).stats ∧
    ((indexAll cChunker cEmb 0 id cStoreAB [] []).trace).Perm
      ((indexAll cChunker cEmb 0 List.reverse cStoreAB [] []).trace) :=
  ⟨(indexAll_deterministic cChunker cEmb 0 id List.reverse cStoreAB [] []
      (fun l => List.Perm.refl l) (fun l => List.reverse_perm l)).1,
   (indexAll_deterministic cChunker cEmb 0 id List.reverse cStoreAB [] []
      (fun l => List.Perm.refl l) (fun l => List.reverse_perm l)).2.1,
   (indexAll_deterministic cChunker cEmb 0 id List.reverse cStoreAB [] []
      (fun l => List.Perm.refl l) (fun l => List.reverse_perm l)).2.2.1⟩

/-! ## Claim C5: best-effort per file -/

theorem cChunker_paths : ∀ p c, ∀ i ∈ cChunker p c, i.filePath = p := by
  intro p c i hi
  unfold cChunker at hi
  by_cases hc : c = ""
  · rw [if_pos hc] at hi
    exact absurd hi (List.not_mem_nil i)
  · rw [if_neg hc] at hi
    rcases List.mem_cons.mp hi with h | h
    · rw [h]
    · exact absurd h (List.not_mem_nil i)

theorem cEmb_total : ∀ cs, cEmb cs ≠ none := by
  intro cs h
  simp [cEmb] at h

/-- Claim C5: IndexAll is best-effort per file.  The embedded IndexAll is
total, so per-file IndexFile failures never abort the run; FilesIndexed and
ChunksCreated count exactly the non-skipped files whose IndexFile call
succeeds (failed files are excluded); every changed file the embedder
accepts is still indexed — its SaveDocument operation appears in the trace
even when other files fail; and the deletion phase for vanished files still
runs: their chunks and documents are gone at the end. -/
theorem indexAll_best_effort (chunker : String → String → List ChunkInfo)
    (emb : List String → Option (List (List Rat))) (now : Int)
    (mapOrder : List String → List String)
    (s0 : StoreState) (files : List FileInfo) (skipped : List String)
    (hnd : (files.map (fun f => f.path)).Nodup)
    (hmo : ∀ l, (mapOrder l).Perm l) :
    (indexAll chunker emb now mapOrder s0 files skipped).stats.filesIndexed =
      (files.filter (fileIndexed chunker emb s0)).length ∧
    (indexAll chunker emb now mapOrder s0 files skipped).stats.chunksCreated =
      ((files.filter (fileIndexed chunker emb s0)).map
        (fun f => (chunker f.path f.content).length)).sum ∧
    (∀ f ∈ files, embFails chunker emb f = true →
      fileIndexed chunker emb s0 f = false) ∧
    (∀ f ∈ files, ∀ vs, docHashMatches s0 f = false →
      (chunker f.path f.content).isEmpty = false →
      emb ((chunker f.path f.content).map (fun i => i.content)) = some vs →
      Op.saveDocument (docFor f (chunker f.path f.content)) ∈
        (indexAll chunker emb now mapOrder s0 files skipped).trace) ∧
    (∀ p ∈ listDocuments s0, p ∉ files.map (fun f => f.path) →
      Op.deleteDocument p ∈
        (indexAll chunker emb now mapOrder s0 files skipped).trace ∧
      getDocument (indexAll chunker emb now mapOrder s0 files skipped).state p =
        none ∧
      chunksFor (indexAll chunker emb now mapOrder s0 files skipped).state p =
        []) := by
  obtain ⟨h1, h2, h3, h4⟩ := indexLoop_counts chunker emb now s0 files
    (startState s0) hnd (fun f _ => rfl)
  refine ⟨?_, ?_, ?_, ?_, ?_⟩
  · show (indexLoop chunker emb now (startState s0) files).filesIndexed = _
    rw [h1]
    simp [startState]
  · show (indexLoop chunker emb now (startState s0) files).chunksCreated = _
    rw [h2]
    simp [startState]
  · intro f _ hfail
    simp [fileIndexed, hfail]
  · intro f hf vs hm0 he hemb2
    have hop : Op.saveDocument (docFor f (chunker f.path f.content)) ∈
        stepOps chunker emb now s0 f := by
      simp [stepOps, hm0, indexFileOps_ok chunker emb now f vs he hemb2]
    show Op.saveDocument _ ∈
      (indexLoop chunker emb now (startState s0) files).trace ++ _
    apply List.mem_append.mpr
    left
    rw [h4]
    exact List.mem_append.mpr
      (Or.inr (stepOps_mem_loopOps chunker emb now s0 files f hf _ hop))
  · intro p hp hnp
    have hpe : p ∈ (indexLoop chunker emb now (startState s0) files).existingSet := by
      rw [h3]
      apply List.mem_filter.mpr
      refine ⟨?_, ?_⟩
      · show p ∈ ((listDocuments s0).dedup : List String)
        exact List.mem_dedup.mpr hp
      · have hany : files.any (fun f2 =>
            f2.path == p && fileErased chunker emb s0 f2) = false := by
          rw [List.any_eq_false]
          intro f2 hf2
          by_cases hf2p : f2.path = p
          · exact absurd (hf2p ▸ List.mem_map_of_mem _ hf2) hnp
          · simp [hf2p]
        simp [hany]
    have hpl : p ∈ mapOrder
        (indexLoop chunker emb now (startState s0) files).existingSet :=
      (hmo _).mem_iff.mpr hpe
    refine ⟨?_, ?_, ?_⟩
    · show Op.deleteDocument p ∈
        (indexLoop chunker emb now (startState s0) files).trace ++ _
      apply List.mem_append.mpr
      right
      rw [removePhase_trace]
      exact (removeOps_mem _ _).mpr ⟨p, hpl, Or.inr rfl⟩
    · show getDocument (removePhase _ _).1 p = none
      rw [getDocument_removePhase, if_pos hpl]
    · show chunksFor (removePhase _ _).1 p = []
      rw [chunksFor_removePhase, if_pos hpl]

/-- Witness for C5: the embedder fails on the only scanned file, yet the
run counts zero indexed files and the vanished document a is removed. -/
theorem indexAll_best_effort_witness :
    (indexAll cChunker cEmbFail 0 id cStoreAB [cFileChanged] []).stats.filesIndexed =
      ([cFileChanged].filter (fileIndexed cChunker cEmbFail cStoreAB)).length ∧
    embFails cChunker cEmbFail cFileChanged = true ∧
    Op.deleteDocument "a" ∈
      (indexAll cChunker cEmbFail 0 id cStoreAB [cFileChanged] []).trace :=
  ⟨(indexAll_best_effort cChunker cEmbFail 0 id cStoreAB [cFileChanged] []
      (by decide) (fun l => List.Perm.refl l)).1,
   by decide,
   ((indexAll_best_effort cChunker cEmbFail 0 id cStoreAB [cFileChanged] []
      (by decide) (fun l => List.Perm.refl l)).2.2.2.2 "a"
      (by decide) (by decide)).1⟩

/-! ## Claim C4: deletion propagation -/

/-- Counterexample to C4 as stated: the scanned, changed file a.txt fails
to index because the embedder errors; the removal phase then applies
RemoveFile to it and counts it in FilesRemoved although its path is
present in the scan. -/
theorem indexAll_removal_counterexample :
    "a.txt" ∈ [cFileChanged].map (fun f => f.path) ∧
    Op.deleteDocument "a.txt" ∈
      (indexAll cChunker cEmbFail 0 id cStore [cFileChanged] []).trace ∧
    (indexAll cChunker cEmbFail 0 id cStore [cFileChanged] []).stats.filesRemoved
      = 1 := by
  refine ⟨by decide, by decide, by decide⟩

/-- Claim C4 (amended): after IndexAll completes, every path in the store's
document list but absent from the scan has had DeleteByFile and
DeleteDocument applied (its chunks and document are gone from the final
store).  Provided no per-file IndexFile failure occurred, the removed paths
are exactly the vanished ones: a DeleteDocument operation occurs for p iff
p was stored and is absent from the scan, and FilesRemoved counts exactly
those paths; a scanned path whose IndexFile call fails is, however, also
removed (see the counterexample). -/
theorem indexAll_deletion (chunker : String → String → List ChunkInfo)
    (emb : List String → Option (List (List Rat))) (now : Int)
    (mapOrder : List String → List String)
    (s0 : StoreState) (files : List FileInfo) (skipped : List String)
    (hnd : (files.map (fun f => f.path)).Nodup)
    (hmo : ∀ l, (mapOrder l).Perm l)
    (hemb : ∀ cs, emb cs ≠ none) :
    (∀ p ∈ listDocuments s0, p ∉ files.map (fun f => f.path) →
      Op.deleteByFile p ∈
        (indexAll chunker emb now mapOrder s0 files skipped).trace ∧
      Op.deleteDocument p ∈
        (indexAll chunker emb now mapOrder s0 files skipped).trace ∧
      getDocument (indexAll chunker emb now mapOrder s0 files skipped).state p =
        none ∧
      chunksFor (indexAll chunker emb now mapOrder s0 files skipped).state p =
        []) ∧
    (∀ p, Op.deleteDocument p ∈
        (indexAll chunker emb now mapOrder s0 files skipped).trace ↔
      (p ∈ listDocuments s0 ∧ p ∉ files.map (fun f => f.path))) ∧
    (indexAll chunker emb now mapOrder s0 files skipped).stats.filesRemoved =
      ((listDocuments s0).dedup.filter
        (fun p => !(files.any (fun f2 => f2.path == p)))).length := by
  have hex := existingSet_of_total chunker emb now s0 files hnd hemb
  have hmem : ∀ p, p ∈ mapOrder
      (indexLoop chunker emb now (startState s0) files).existingSet ↔
      (p ∈ listDocuments s0 ∧ p ∉ files.map (fun f => f.path)) := by
    intro p
    rw [(hmo _).mem_iff, hex, List.mem_filter]
    constructor
    · rintro ⟨hdp, hpred⟩
      refine ⟨List.mem_dedup.mp hdp, ?_⟩
      intro hmap
      obtain ⟨f2, hf2, hf2p⟩ := List.mem_map.mp hmap
      have : files.any (fun f2 => f2.path == p) = true :=
        List.any_eq_true.mpr ⟨f2, hf2, by simp [hf2p]⟩
      rw [this] at hpred
      exact Bool.noConfusion hpred
    · rintro ⟨hdp, hnp⟩
      refine ⟨List.mem_dedup.mpr hdp, ?_⟩
      have hany : files.any (fun f2 => f2.path == p) = false := by
        rw [List.any_eq_false]
        intro f2 hf2
        by_cases hf2p : f2.path = p
        · exact absurd (hf2p ▸ List.mem_map_of_mem _ hf2) hnp
        · simp [hf2p]
      simp [hany]
  obtain ⟨_, _, _, h4⟩ := indexLoop_counts chunker emb now s0 files
    (startState s0) hnd (fun f _ => rfl)
  refine ⟨?_, ?_, ?_⟩
  · intro p hp hnp
    have hpl := (hmem p).mpr ⟨hp, hnp⟩
    refine ⟨?_, ?_, ?_, ?_⟩
    · show Op.deleteByFile p ∈
        (indexLoop chunker emb now (startState s0) files).trace ++ _
      apply List.mem_append.mpr
      right
      rw [removePhase_trace]
      exact (removeOps_mem _ _).mpr ⟨p, hpl, Or.inl rfl⟩
    · show Op.deleteDocument p ∈
        (indexLoop chunker emb now (startState s0) files).trace ++ _
      apply List.mem_append.mpr
      right
      rw [removePhase_trace]
      exact (removeOps_mem _ _).mpr ⟨p, hpl, Or.inr rfl⟩
    · show getDocument (removePhase _ _).1 p = none
      rw [getDocument_removePhase, if_pos hpl]
    · show chunksFor (removePhase _ _).1 p = []
      rw [chunksFor_removePhase, if_pos hpl]
  · intro p
    constructor
    · intro hd
      rcases List.mem_append.mp hd with h | h
      · rw [h4] at h
        rcases List.mem_append.mp h with h2 | h2
        · rcases List.mem_cons.mp h2 with h3 | h3
          · exact Op.noConfusion h3
          · exact absurd h3 (List.not_mem_nil _)
        · exact absurd h2 (loopOps_no_deleteDocument chunker emb now s0 files p)
      · rw [removePhase_trace] at h
        obtain ⟨q, hq, hqd⟩ := (removeOps_mem _ _).mp h
        rcases hqd with h3 | h3
        · exact Op.noConfusion h3
        · have hpq : p = q := by
            injection h3
          exact (hmem p).mp (hpq ▸ hq)
    · intro ⟨hp, hnp⟩
      have hpl := (hmem p).mpr ⟨hp, hnp⟩
      show Op.deleteDocument p ∈
        (indexLoop chunker emb now (startState s0) files).trace ++ _
      apply List.mem_append.mpr
      right
      rw [removePhase_trace]
      exact (removeOps_mem _ _).mpr ⟨p, hpl, Or.inr rfl⟩
  · show (removePhase _ _).2.2 = _
    rw [removePhase_count, (hmo _).length_eq, hex]

/-- Witness for C4: with a total embedder, re-indexing one changed file
removes exactly the two vanished documents a and b. -/
theorem indexAll_deletion_witness :
    (Op.deleteByFile "a" ∈
      (indexAll cChunker cEmb 0 id cStoreAB [cFileChanged] []).trace ∧
     Op.deleteDocument "a" ∈
      (indexAll cChunker cEmb 0 id cStoreAB [cFileChanged] []).trace ∧
     getDocument (indexAll cChunker cEmb 0 id cStoreAB [cFileChanged] []).state
       "a" = none ∧
     chunksFor (indexAll cChunker cEmb 0 id cStoreAB [cFileChanged] []).state
       "a" = []) ∧
    (Op.deleteDocument "a.txt" ∈
      (indexAll cChunker cEmb 0 id cStoreAB [cFileChanged] []).trace ↔
      ("a.txt" ∈ listDocuments cStoreAB ∧
        "a.txt" ∉ [cFileChanged].map (fun f => f.path))) ∧
    (indexAll cChunker cEmb 0 id cStoreAB [cFileChanged] []).stats.filesRemoved =
      ((listDocuments cStoreAB).dedup.filter
        (fun p => !([cFileChanged].any (fun f2 => f2.path == p)))).length :=
  ⟨(indexAll_deletion cChunker cEmb 0 id cStoreAB [cFileChanged] []
      (by decide) (fun l => List.Perm.refl l) cEmb_total).1 "a"
      (by decide) (by decide),
   (indexAll_deletion cChunker cEmb 0 id cStoreAB [cFileChanged] []
      (by decide) (fun l => List.Perm.refl l) cEmb_total).2.1 "a.txt",
   (indexAll_deletion cChunker cEmb 0 id cStoreAB [cFileChanged] []
      (by decide) (fun l => List.Perm.refl l) cEmb_total).2.2⟩

/-! ## Claim C3: idempotent re-indexing -/

theorem indexLoop_noop (chunker : String → String → List ChunkInfo)
    (emb : List String → Option (List (List Rat))) (now : Int)
    (files : List FileInfo) (ls : LoopState)
    (hgood : ∀ f ∈ files, docHashMatches ls.store f = true ∨
      ((chunker f.path f.content).isEmpty = true ∧
        chunksFor ls.store f.path = [])) :
    (indexLoop chunker emb now ls files).store = ls.store ∧
    (∀ cs, Op.embedBatch cs ∈ (indexLoop chunker emb now ls files).trace →
      Op.embedBatch cs ∈ ls.trace) := by
  induction files generalizing ls with
  | nil => exact ⟨rfl, fun cs h => h⟩
  | cons f rest ih =>
    have hstep_store : (indexStep chunker emb now ls f).store = ls.store := by
      rcases hgood f (List.mem_cons_self f rest) with hm | ⟨he, hcf⟩
      · rw [indexStep_skip chunker emb now ls f hm]
      · by_cases hm : docHashMatches ls.store f = true
        · rw [indexStep_skip chunker emb now ls f hm]
        · have hm2 : docHashMatches ls.store f = false := by simpa using hm
          rw [indexStep_empty chunker emb now ls f hm2 he]
          show deleteByFile ls.store f.path = ls.store
          unfold deleteByFile
          have hfe : ls.store.chunks.filter (fun c => !(c.filePath == f.path)) =
              ls.store.chunks := by
            rw [List.filter_eq_self]
            intro c hc
            have hcc := (List.filter_eq_nil_iff.mp hcf) c hc
            simpa using hcc
          rw [hfe]
    have hstep_trace : ∀ cs,
        Op.embedBatch cs ∈ (indexStep chunker emb now ls f).trace →
        Op.embedBatch cs ∈ ls.trace := by
      intro cs hmem
      rcases hgood f (List.mem_cons_self f rest) with hm | ⟨he, hcf⟩
      · rw [indexStep_skip chunker emb now ls f hm] at hmem
        rcases List.mem_append.mp hmem with h | h
        · exact h
        · rcases List.mem_cons.mp h with h2 | h2
          · exact Op.noConfusion h2
          · exact absurd h2 (List.not_mem_nil _)
      · by_cases hm : docHashMatches ls.store f = true
        · rw [indexStep_skip chunker emb now ls f hm] at hmem
          rcases List.mem_append.mp hmem with h | h
          · exact h
          · rcases List.mem_cons.mp h with h2 | h2
            · exact Op.noConfusion h2
            · exact absurd h2 (List.not_mem_nil _)
        · have hm2 : docHashMatches ls.store f = false := by simpa using hm
          rw [indexStep_empty chunker emb now ls f hm2 he] at hmem
          rcases List.mem_append.mp hmem with h | h
          · rcases List.mem_append.mp h with h2 | h2
            · exact h2
            · rcases List.mem_cons.mp h2 with h3 | h3
              · exact Op.noConfusion h3
              · exact absurd h3 (List.not_mem_nil _)
          · rcases List.mem_cons.mp h with h3 | h3
            · exact Op.noConfusion h3
            · exact absurd h3 (List.not_mem_nil _)
    have hgood2 : ∀ g ∈ rest,
        docHashMatches (indexStep chunker emb now ls f).store g = true ∨
        ((chunker g.path g.content).isEmpty = true ∧
          chunksFor (indexStep chunker emb now ls f).store g.path = []) := by
      intro g hg
      rw [hstep_store]
      exact hgood g (List.mem_cons_of_mem f hg)
    obtain ⟨ihs, iht⟩ := ih (indexStep chunker emb now ls f) hgood2
    refine ⟨?_, ?_⟩
    · rw [show indexLoop chunker emb now ls (f :: rest) =
        indexLoop chunker emb now (indexStep chunker emb now ls f) rest from rfl,
        ihs, hstep_store]
    · intro cs hmem
      rw [show indexLoop chunker emb now ls (f :: rest) =
        indexLoop chunker emb now (indexStep chunker emb now ls f) rest from
          rfl] at hmem
      exact hstep_trace cs (iht cs hmem)

/-- Claim C3: re-indexing is idempotent.  A file whose stored document hash
equals the scanned hash is skipped: the loop iteration only issues the
GetDocument read, leaves the store and the counters untouched, and erases
the path from the existing set.  Consequently, with a total embedder,
running IndexAll twice on the same scan result performs zero EmbedBatch
calls in the second run and the second run leaves the store state exactly
equal to the state after the first run. -/
theorem indexAll_idempotent (chunker : String → String → List ChunkInfo)
    (emb : List String → Option (List (List Rat))) (now now2 : Int)
    (mapOrder : List String → List String)
    (s0 : StoreState) (files : List FileInfo)
    (skipped skipped2 : List String)
    (hch : ∀ p c, ∀ i ∈ chunker p c, i.filePath = p)
    (hnd : (files.map (fun f => f.path)).Nodup)
    (hmo : ∀ l, (mapOrder l).Perm l)
    (hemb : ∀ cs, emb cs ≠ none) :
    (∀ ls f, docHashMatches ls.store f = true →
      indexStep chunker emb now2 ls f =
        { ls with existingSet := eraseKey ls.existingSet f.path,
                  trace := ls.trace ++ [Op.getDocument f.path] }) ∧
    (∀ cs, Op.embedBatch cs ∉
      (indexAll chunker emb now2 mapOrder
        (indexAll chunker emb now mapOrder s0 files skipped).state
        files skipped2).trace) ∧
    (indexAll chunker emb now2 mapOrder
        (indexAll chunker emb now mapOrder s0 files skipped).state
        files skipped2).state =
      (indexAll chunker emb now mapOrder s0 files skipped).state := by
  have hex1 := existingSet_of_total chunker emb now s0 files hnd hemb
  have hfacts := indexLoop_file_facts chunker emb now s0 files
    (startState s0) hch hnd (fun f _ => rfl)
  have hnotin : ∀ f ∈ files, f.path ∉ mapOrder
      (indexLoop chunker emb now (startState s0) files).existingSet := by
    intro f hf hmem
    have hmem2 := (hmo _).mem_iff.mp hmem
    rw [hex1] at hmem2
    have hpred := (List.mem_filter.mp hmem2).2
    have hany : files.any (fun f2 => f2.path == f.path) = true :=
      List.any_eq_true.mpr ⟨f, hf, by simp⟩
    rw [hany] at hpred
    exact Bool.noConfusion hpred
  have hdoc_s1 : ∀ f ∈ files,
      getDocument (indexAll chunker emb now mapOrder s0 files skipped).state
        f.path =
      getDocument (indexLoop chunker emb now (startState s0) files).store
        f.path := by
    intro f hf
    show getDocument (removePhase _ _).1 _ = _
    rw [getDocument_removePhase, if_neg (hnotin f hf)]
  have hchk_s1 : ∀ f ∈ files,
      chunksFor (indexAll chunker emb now mapOrder s0 files skipped).state
        f.path =
      chunksFor (indexLoop chunker emb now (startState s0) files).store
        f.path := by
    intro f hf
    show chunksFor (removePhase _ _).1 _ = _
    rw [chunksFor_removePhase, if_neg (hnotin f hf)]
  have hdocs : ∀ d ∈ (indexAll chunker emb now mapOrder
      s0 files skipped).state.docs, d.path ∈ files.map (fun f => f.path) := by
    intro d hd
    have hdl : d ∈ (indexLoop chunker emb now (startState s0)
        files).store.docs := docs_removePhase_sub _ _ d hd
    rcases indexLoop_docs_sub chunker emb now files (startState s0) d hdl
      with h0 | h0
    · by_contra hnp
      have hp : d.path ∈ listDocuments s0 := List.mem_map_of_mem _ h0
      have hpe : d.path ∈ (indexLoop chunker emb now
          (startState s0) files).existingSet := by
        rw [hex1]
        apply List.mem_filter.mpr
        refine ⟨List.mem_dedup.mpr hp, ?_⟩
        have hany : files.any (fun f2 => f2.path == d.path) = false := by
          rw [List.any_eq_false]
          intro f2 hf2
          by_cases hf2p : f2.path = d.path
          · exact absurd (hf2p ▸ List.mem_map_of_mem _ hf2) hnp
          · simp [hf2p]
        simp [hany]
      have hpl : d.path ∈ mapOrder (indexLoop chunker emb now
          (startState s0) files).existingSet := (hmo _).mem_iff.mpr hpe
      have hnone : getDocument (indexAll chunker emb now mapOrder
          s0 files skipped).state d.path = none := by
        show getDocument (removePhase _ _).1 _ = none
        rw [getDocument_removePhase, if_pos hpl]
      have hcontra := List.find?_eq_none.mp hnone d hd
      simp at hcontra
    · exact h0
  have hgood : ∀ f ∈ files,
      docHashMatches (indexAll chunker emb now mapOrder
        s0 files skipped).state f = true ∨
      ((chunker f.path f.content).isEmpty = true ∧
        chunksFor (indexAll chunker emb now mapOrder
          s0 files skipped).state f.path = []) := by
    intro f hf
    obtain ⟨hA, hB, hC⟩ := hfacts f hf
    by_cases hm0 : docHashMatches s0 f = true
    · left
      have heq : getDocument (indexAll chunker emb now mapOrder
          s0 files skipped).state f.path = getDocument s0 f.path :=
        (hdoc_s1 f hf).trans (hA hm0)
      rw [docHashMatches_congr f heq]
      exact hm0
    · have hm0f : docHashMatches s0 f = false := by simpa using hm0
      cases he : (chunker f.path f.content).isEmpty
      · left
        have hDoc := hB hm0f (embFails_of_total chunker emb hemb f) he
        have heq : getDocument (indexAll chunker emb now mapOrder
            s0 files skipped).state f.path =
            some (docFor f (chunker f.path f.content)) :=
          (hdoc_s1 f hf).trans hDoc
        unfold docHashMatches
        rw [heq]
        simp [docFor]
      · right
        obtain ⟨hc, _⟩ := hC hm0f he
        exact ⟨rfl, (hchk_s1 f hf).trans hc⟩
  obtain ⟨hstore2, htrace2⟩ := indexLoop_noop chunker emb now2 files
    (startState (indexAll chunker emb now mapOrder s0 files skipped).state)
    (by intro f hf; exact hgood f hf)
  have hex2 : (indexLoop chunker emb now2
      (startState (indexAll chunker emb now mapOrder s0 files skipped).state)
      files).existingSet = [] := by
    rw [existingSet_of_total chunker emb now2 _ files hnd hemb]
    rw [List.filter_eq_nil_iff]
    intro p hp
    have hp2 : p ∈ listDocuments
        (indexAll chunker emb now mapOrder s0 files skipped).state :=
      List.mem_dedup.mp hp
    obtain ⟨d, hd, hdp⟩ := List.mem_map.mp hp2
    have hfp : p ∈ files.map (fun f => f.path) := hdp ▸ hdocs d hd
    obtain ⟨f2, hf2, hf2p⟩ := List.mem_map.mp hfp
    have hany : files.any (fun f2 => f2.path == p) = true :=
      List.any_eq_true.mpr ⟨f2, hf2, by simp [hf2p]⟩
    simp [hany]
  have hmo2 : mapOrder (indexLoop chunker emb now2
      (startState (indexAll chunker emb now mapOrder s0 files skipped).state)
      files).existingSet = [] := by
    rw [hex2]
    exact (hmo []).eq_nil
  refine ⟨fun ls f hm => indexStep_skip chunker emb now2 ls f hm, ?_, ?_⟩
  · intro cs hmem
    rcases List.mem_append.mp hmem with h | h
    · have hin := htrace2 cs h
      rcases List.mem_cons.mp hin with h2 | h2
      · exact Op.noConfusion h2
      · exact absurd h2 (List.not_mem_nil _)
    · rw [removePhase_trace, hmo2] at h
      exact absurd h (List.not_mem_nil _)
  · show (removePhase _ _).1 = _
    rw [hmo2]
    exact hstore2

/-- Witness for C3: indexing a changed file and re-running IndexAll on the
resulting store embeds nothing and leaves the store unchanged. -/
theorem indexAll_idempotent_witness :
    (∀ cs, Op.embedBatch cs ∉
      (indexAll cChunker cEmb 1 id
        (indexAll cChunker cEmb 0 id cStore [cFileChanged] []).state
        [cFileChanged] []).trace) ∧
    (indexAll cChunker cEmb 1 id
        (indexAll cChunker cEmb 0 id cStore [cFileChanged] []).state
        [cFileChanged] []).state =
      (indexAll cChunker cEmb 0 id cStore [cFileChanged] []).state :=
  ⟨(indexAll_idempotent cChunker cEmb 0 1 id cStore [cFileChanged] [] []
      cChunker_paths (by decide) (fun l => List.Perm.refl l) cEmb_total).2.1,
   (indexAll_idempotent cChunker cEmb 0 1 id cStore [cFileChanged] [] []
      cChunker_paths (by decide) (fun l => List.Perm.refl l) cEmb_total).2.2⟩

end Grepai
